import Mathlib

/-!
Verification of the squeezeDetMX repository: the `BigRegressionOutput`
block-manipulation operators from `squeezeDetMX/model.py`, and the KITTI
container format (record codec, writer, reader, label parsing) whose
contract is given by the specification and exercised by
`tests/test_kitti.py`.

MXNet `NDArray`s and NumPy arrays are modelled shallowly as a shape list
together with flat row-major data over `Int`: the properties under study
are structural and exact, so exact integers stand in for float32.
-/

namespace SqueezeDetMX

/-- Structural worker for `chunkList`: the fuel bounds the number of
chunks produced (one unit per chunk suffices once fuel ≥ length). -/
def chunkFuel (s : Nat) : Nat → List α → List (List α)
  | _, [] => []
  | 0, _ :: _ => []
  | f + 1, a :: t =>
    if s = 0 then [] else (a :: t).take s :: chunkFuel s f ((a :: t).drop s)

/-- Split a list into consecutive chunks of `s` elements (the final chunk
may be shorter when `s` does not divide the length); `[]` when `s = 0`. -/
def chunkList (s : Nat) (l : List α) : List (List α) := chunkFuel s l.length l

theorem chunkFuel_eq (s : Nat) :
    ∀ (f : Nat) (l : List α), l.length ≤ f → chunkFuel s f l = chunkList s l := by
  have H : ∀ (n f : Nat), f ≤ n → ∀ (l : List α), l.length ≤ f →
      chunkFuel s f l = chunkList s l := by
    intro n
    induction n with
    | zero =>
      intro f hf l hl
      have hf0 : f = 0 := by omega
      subst hf0
      cases l with
      | nil => rfl
      | cons a t => simp at hl
    | succ n ih =>
      intro f hf l hl
      cases l with
      | nil => cases f <;> rfl
      | cons a t =>
        cases f with
        | zero => simp at hl
        | succ g =>
          show _ = chunkFuel s (t.length + 1) (a :: t)
          rw [chunkFuel, chunkFuel]
          by_cases hs : s = 0
          · simp [hs]
          · simp only [hs, if_false]
            have h1 := ih g (by omega) ((a :: t).drop s) (by simp at hl ⊢; omega)
            have h2 := ih t.length (by simp at hl; omega) ((a :: t).drop s)
              (by simp; omega)
            rw [h1, h2]
  intro f l hl
  exact H f f (Nat.le_refl f) l hl

theorem chunkList_nil (s : Nat) : chunkList s ([] : List α) = [] := rfl

theorem chunkList_zero (l : List α) : chunkList 0 l = [] := by
  cases l with
  | nil => rfl
  | cons a t => show chunkFuel 0 (t.length + 1) (a :: t) = []; rw [chunkFuel]; simp

theorem chunkList_cons (s : Nat) (l : List α) (hs : s ≠ 0) (hl : l ≠ []) :
    chunkList s l = l.take s :: chunkList s (l.drop s) := by
  cases l with
  | nil => exact absurd rfl hl
  | cons a t =>
    show chunkFuel s (t.length + 1) (a :: t) = _
    rw [chunkFuel]
    simp only [hs, if_false]
    congr 1
    exact chunkFuel_eq s t.length _ (by simp only [List.length_drop, List.length_cons]; omega)

/-- Joining the chunks recovers the original list (for positive chunk size). -/
theorem join_chunkList (s : Nat) (hs : 0 < s) (l : List α) :
    (chunkList s l).flatten = l := by
  have main : ∀ (n : Nat) (l : List α), l.length ≤ n → (chunkList s l).flatten = l := by
    intro n
    induction n with
    | zero =>
      intro l hl
      have : l = [] := by cases l with
        | nil => rfl
        | cons a t => simp at hl
      rw [this, chunkList_nil]; rfl
    | succ n ih =>
      intro l hl
      cases l with
      | nil => rw [chunkList_nil]; rfl
      | cons a t =>
        rw [chunkList_cons s (a :: t) (by omega) (by simp), List.flatten_cons,
          ih ((a :: t).drop s) (by simp at hl ⊢; omega), List.take_append_drop]
  exact main l.length l (Nat.le_refl _)

/-- Chunking the join of uniformly-sized lists recovers them. -/
theorem chunkList_join (s : Nat) (hs : 0 < s) :
    ∀ xs : List (List α), (∀ x ∈ xs, x.length = s) →
      chunkList s xs.flatten = xs := by
  intro xs
  induction xs with
  | nil => intro _; rw [List.flatten_nil, chunkList_nil]
  | cons x xs ih =>
    intro hlen
    have hx : x.length = s := hlen x (by simp)
    have hxne : (x ++ xs.flatten) ≠ [] := by
      apply List.ne_nil_of_length_pos
      simp only [List.length_append]
      omega
    rw [List.flatten_cons, chunkList_cons s _ (by omega) hxne,
      List.take_left' hx, List.drop_left' hx]
    congr 1
    exact ih (fun y hy => hlen y (by simp [hy]))

/-- The `j`-th chunk is the slice `[j*s, j*s + s)` of the original list. -/
theorem chunkList_getD (s : Nat) :
    ∀ (j : Nat) (l : List α), (chunkList s l).getD j [] = (l.drop (j * s)).take s := by
  intro j
  induction j with
  | zero =>
    intro l
    by_cases hs : s = 0
    · simp [hs, chunkList_zero]
    · cases l with
      | nil => simp [chunkList_nil]
      | cons a l => rw [chunkList_cons s _ hs (by simp)]; simp
  | succ j ih =>
    intro l
    by_cases hs : s = 0
    · simp [hs, chunkList_zero]
    · cases l with
      | nil => simp [chunkList_nil]
      | cons a l =>
        rw [chunkList_cons s _ hs (by simp)]
        simp only [List.getD_cons_succ]
        rw [ih, List.drop_drop, Nat.succ_mul, Nat.add_comm]

/-- Dropping `a` whole chunks off the join of uniformly-sized lists. -/
theorem join_drop_uniform (s : Nat) :
    ∀ (a : Nat) (xs : List (List α)), (∀ x ∈ xs, x.length = s) →
      xs.flatten.drop (a * s) = (xs.drop a).flatten := by
  intro a
  induction a with
  | zero => intro xs _; simp
  | succ a ih =>
    intro xs hlen
    cases xs with
    | nil => simp
    | cons x xs =>
      have hx : x.length = s := hlen x (by simp)
      simp only [List.flatten_cons, List.drop_succ_cons]
      rw [Nat.succ_mul, Nat.add_comm, ← List.drop_drop, List.drop_left' hx]
      exact ih xs (fun y hy => hlen y (by simp [hy]))

/-- Taking `a` whole chunks off the join of uniformly-sized lists. -/
theorem join_take_uniform (s : Nat) :
    ∀ (a : Nat) (xs : List (List α)), (∀ x ∈ xs, x.length = s) →
      xs.flatten.take (a * s) = (xs.take a).flatten := by
  intro a
  induction a with
  | zero => intro xs _; simp
  | succ a ih =>
    intro xs hlen
    cases xs with
    | nil => simp
    | cons x xs =>
      have hx : x.length = s := hlen x (by simp)
      simp only [List.flatten_cons, List.take_succ_cons]
      have h1 : List.take (s + a * s) x = x := List.take_of_length_le (by omega)
      rw [Nat.succ_mul, Nat.add_comm, List.take_append_eq_append_take, h1, hx,
        Nat.add_sub_cancel_left]
      congr 1
      exact ih xs (fun y hy => hlen y (by simp [hy]))

/-- A list of length `n*s` is chunked into exactly the `n` index-addressed
slices. -/
theorem chunkList_eq_range_map (s n : Nat) (hs : 0 < s) :
    ∀ l : List α, l.length = n * s →
      chunkList s l = (List.range n).map (fun i => (l.drop (i * s)).take s) := by
  induction n with
  | zero =>
    intro l hl
    simp at hl
    simp [hl, chunkList_nil]
  | succ n ih =>
    intro l hl
    have hpos : 0 < (n + 1) * s := Nat.mul_pos (Nat.succ_pos n) hs
    have hlne : l ≠ [] := by
      intro hcon; rw [hcon] at hl; simp at hl; omega
    rw [chunkList_cons s l (by omega) hlne, List.range_succ_eq_map]
    simp only [List.map_cons, List.map_map]
    have hdrop : (l.drop s).length = n * s := by
      rw [List.length_drop, hl, Nat.succ_mul]; omega
    rw [ih (l.drop s) hdrop]
    congr 1
    · simp
    · apply List.map_congr_left
      intro i _
      simp only [Function.comp]
      rw [List.drop_drop, Nat.succ_mul, Nat.add_comm]

/-! ## Tensor model

MXNet `NDArray`s / NumPy arrays appear in `model.py` only through `split`,
`expand_dims`, `concat`, elementwise (broadcast) multiplication and
iteration over axis 0.  A tensor is a shape together with flat row-major
data. -/

structure Tensor where
  shape : List Nat
  data  : List Int
deriving DecidableEq, Repr

/-- Row-major well-formedness: the flat data fills the shape exactly. -/
def Tensor.wf (t : Tensor) : Prop := t.data.length = t.shape.prod

/-- `numpy.split(t, n, axis=a)`: `n` equal sections along axis `a`,
section `j` being the slice `[j*(d/n), (j+1)*(d/n))` of that axis. -/
def npSplit (a n : Nat) (t : Tensor) : List Tensor :=
  let d := t.shape.getD a 0
  let inner := (t.shape.drop (a + 1)).prod
  let c := d / n
  (List.range n).map (fun j =>
    { shape := t.shape.set a c
      data := ((chunkList (d * inner) t.data).map
        (fun blk => (blk.drop (j * (c * inner))).take (c * inner))).flatten })

/-- `mxnet.nd.split` (`SliceChannel`): same sectioning along axis `a`,
here computed by chunking each outer block into `n` consecutive pieces. -/
def ndSplitSections (a n : Nat) (t : Tensor) : List Tensor :=
  let d := t.shape.getD a 0
  let inner := (t.shape.drop (a + 1)).prod
  let c := d / n
  (List.range n).map (fun j =>
    { shape := t.shape.set a c
      data := ((chunkList (d * inner) t.data).map
        (fun blk => (chunkList (c * inner) blk).getD j [])).flatten })

/-- Iterating an `NDArray` in Python (`for split in splits`) yields its
slices along axis 0. -/
def iterAxis0 (t : Tensor) : List Tensor :=
  (chunkList t.shape.tail.prod t.data).map (fun c => ⟨t.shape.tail, c⟩)

/-- `expand_dims(t, axis=a)`: insert a length-1 axis at position `a`. -/
def expandDims (a : Nat) (t : Tensor) : Tensor :=
  ⟨t.shape.take a ++ 1 :: t.shape.drop a, t.data⟩

/-- Concatenation of two tensors along axis `a` (shapes agree off `a`). -/
def concatPair (a : Nat) (t u : Tensor) : Tensor :=
  ⟨t.shape.set a (t.shape.getD a 0 + u.shape.getD a 0),
   (List.zipWith (· ++ ·)
      (chunkList (t.shape.drop a).prod t.data)
      (chunkList (u.shape.drop a).prod u.data)).flatten⟩

/-- `nd.concat(*ts, dim=a)` / `np.concatenate(ts, axis=a)` for one or more
inputs. -/
def concatAxis (a : Nat) : List Tensor → Tensor
  | [] => ⟨[], []⟩
  | t :: ts => ts.foldl (concatPair a) t

/-- The NDArray `*` operator (`broadcast_mul`) restricted to the one shape
pattern `forward` uses: both operands agree on axes 0, 1, 3, 4 and the
right operand has extent 1 on axis 2, which is broadcast across the left
operand's axis 2. -/
def broadcastMul2 (t u : Tensor) : Tensor :=
  let plane := (t.shape.drop 3).prod
  ⟨t.shape,
   (List.zipWith (fun bt bu =>
        ((chunkList plane bt).map (fun att => List.zipWith (· * ·) att bu)).flatten)
      (chunkList (t.shape.drop 2).prod t.data)
      (chunkList (u.shape.drop 2).prod u.data)).flatten⟩

/-- `nd.split(t, num_outputs=m, axis=2, squeeze_axis=True)` where axis 2
has extent `m`: the `m` slices along axis 2, each with axis 2 removed.
(`merge_block` re-wraps the `m = 1` case into a singleton list, so a
list-valued model matches the source's net effect for every `m`.) -/
def splitSqueeze2 (m : Nat) (t : Tensor) : List Tensor :=
  let plane := (t.shape.drop 3).prod
  (List.range m).map (fun j =>
    ⟨t.shape.take 2 ++ t.shape.drop 3,
     ((chunkList (t.shape.drop 2).prod t.data).map
        (fun blk => (blk.drop (j * plane)).take plane)).flatten⟩)

namespace BigRegressionOutput

/-- `BigRegressionOutput.split_block` (model.py:110-127).  `nd.split` with
`num_outputs=1` returns the bare `NDArray` rather than a list (the source's
own `merge_block` works around exactly this), so the comprehension
`[nd.expand_dims(split, axis=2) for split in splits]` then iterates the
block along axis 0; that branch is modelled explicitly.
`ANCHORS_PER_GRID` (`apg`) and `NUM_BBOX_ATTRS` (`nba`) live in the
repository's `constants.py`, which is not among the inspected sources;
they are taken as parameters. -/
def split_block (apg nba : Nat) (block : Tensor) : Tensor × Tensor :=
  let n := block.shape.getD 1 0 / apg
  let expanded :=
    if n = 1 then (iterAxis0 block).map (expandDims 2)
    else (ndSplitSections 1 n block).map (expandDims 2)
  (concatAxis 2 (expanded.take nba), expanded.getLastD ⟨[], []⟩)

/-- `BigRegressionOutput.split_block_np` (model.py:129-137): the NumPy
version; `np.split` always returns a list. -/
def split_block_np (apg nba : Nat) (block : Tensor) : Tensor × Tensor :=
  let n := block.shape.getD 1 0 / apg
  let expanded := (npSplit 1 n block).map (expandDims 2)
  (concatAxis 2 (expanded.take nba), expanded.getLastD ⟨[], []⟩)

/-- `BigRegressionOutput.merge_block` (model.py:139-148): squeeze-split
every input along axis 2 and concatenate all pieces along axis 1. -/
def merge_block (splits : List Tensor) : Tensor :=
  concatAxis 1 ((splits.map (fun s => splitSqueeze2 (s.shape.getD 2 0) s)).flatten)

/-- `BigRegressionOutput.forward` (model.py:96-101): mask the predicted
bbox block by the label's score block and merge back
(`as_in_context`/`assign` move data without changing it). -/
def forward (apg nba : Nat) (pred label : Tensor) : Tensor :=
  let pb := split_block apg nba pred
  let lb := split_block apg nba label
  merge_block [broadcastMul2 pb.1 lb.2, pb.2]

end BigRegressionOutput

/-- The effect claimed for `forward`: the prediction unchanged except that
each bounding-box channel `c < nba*apg` is multiplied elementwise by the
label's mask plane for the same anchor (the label's score-block channel
`nba*apg + c % apg`), score channels untouched. -/
def maskedPrediction (apg nba : Nat) (pred label : Tensor) : Tensor :=
  let hw := (pred.shape.drop 2).prod
  let C := pred.shape.getD 1 0
  ⟨pred.shape,
   (List.zipWith (fun pb lb =>
        ((List.range C).map (fun c =>
          if c < nba * apg then
            List.zipWith (· * ·) ((pb.drop (c * hw)).take hw)
              ((lb.drop ((nba * apg + c % apg) * hw)).take hw)
          else (pb.drop (c * hw)).take hw)).flatten)
      (chunkList (C * hw) pred.data) (chunkList (C * hw) label.data)).flatten⟩


/-- `SliceChannel` sections and `np.split` sections coincide. -/
theorem ndSplitSections_eq_npSplit (a n : Nat) (t : Tensor) :
    ndSplitSections a n t = npSplit a n t := by
  unfold ndSplitSections npSplit
  apply List.map_congr_left
  intro j _
  refine congrArg (Tensor.mk _) ?_
  refine congrArg List.flatten (List.map_congr_left ?_)
  intro blk _
  rw [chunkList_getD]

/-- C9, counterexample: with `ANCHORS_PER_GRID = 9` and
`NUM_BBOX_ATTRS = 4`, a block whose channel dimension is `9` (the positive
multiple `1 * 9`) makes `split_block` iterate the bare `NDArray` returned
by `nd.split(num_outputs=1)` along axis 0, while `split_block_np` keeps the
single section intact, so the two disagree. -/
theorem split_block_ne_np_at_single_section :
    BigRegressionOutput.split_block 9 4 ⟨[1, 9, 1, 1], [0, 0, 0, 0, 0, 0, 0, 0, 0]⟩ ≠
      BigRegressionOutput.split_block_np 9 4 ⟨[1, 9, 1, 1], [0, 0, 0, 0, 0, 0, 0, 0, 0]⟩ := by
  decide

/-- C9, amended: whenever the channel dimension is `k * ANCHORS_PER_GRID`
with `k ≥ 2`, `split_block` and `split_block_np` return identical
(bbox, score) pairs: same shapes, same element values. -/
theorem split_block_eq_split_block_np (apg nba k : Nat) (block : Tensor)
    (hapg : 0 < apg) (hk : 2 ≤ k) (hC : block.shape.getD 1 0 = k * apg) :
    BigRegressionOutput.split_block apg nba block =
      BigRegressionOutput.split_block_np apg nba block := by
  unfold BigRegressionOutput.split_block BigRegressionOutput.split_block_np
  have hn : block.shape.getD 1 0 / apg = k := by
    rw [hC, Nat.mul_div_cancel _ hapg]
  simp only [hn, ndSplitSections_eq_npSplit]
  rw [if_neg (by omega : ¬ k = 1)]

theorem split_block_eq_split_block_np_witness :
    0 < 1 ∧ 2 ≤ 2 ∧ (Tensor.mk [1, 2, 1, 1] [2, 3]).shape.getD 1 0 = 2 * 1 ∧
      BigRegressionOutput.split_block 1 4 ⟨[1, 2, 1, 1], [2, 3]⟩ =
        BigRegressionOutput.split_block_np 1 4 ⟨[1, 2, 1, 1], [2, 3]⟩ :=
  ⟨by decide, by decide, by decide,
    split_block_eq_split_block_np 1 4 2 _ (by decide) (by decide) (by decide)⟩

/-! ## Container format

`squeezeDetMX/kitti.py` and `squeezeDetMX/utils.py` are not among the
inspected sources (only `tests/test_kitti.py` exercises them), so the
container format below is modelled from the specification: §3 data model,
§4.2 ImageCodec, §4.3 RecordCodec, §4.4 ContainerWriter,
§4.5 ContainerReader, §6 byte layout and §7 error kinds.  "Bytes" are
naturals below 256.  The spec leaves the exact prefix/field widths an
implementation choice ("fixed and documented"); 8 bytes each are fixed
here. -/

/-- Width in bytes of every fixed-width unsigned integer prefix
(image length and label row count). -/
def lenW : Nat := 8

/-- Width in bytes of one fixed-width numeric label field. -/
def fieldW : Nat := 8

/-- Little-endian fixed-width encoding of a natural into `w` bytes. -/
def natToBytes : Nat → Nat → List Nat
  | 0, _ => []
  | w + 1, n => n % 256 :: natToBytes w (n / 256)

/-- Little-endian decoding of a byte list into a natural. -/
def bytesToNat : List Nat → Nat
  | [] => 0
  | b :: bs => b + 256 * bytesToNat bs

theorem natToBytes_length (w n : Nat) : (natToBytes w n).length = w := by
  induction w generalizing n with
  | zero => rfl
  | succ w ih => simp [natToBytes, ih]

theorem bytesToNat_natToBytes (w n : Nat) (h : n < 256 ^ w) :
    bytesToNat (natToBytes w n) = n := by
  induction w generalizing n with
  | zero => simp at h; simp [natToBytes, bytesToNat, h]
  | succ w ih =>
    have hdiv : n / 256 < 256 ^ w := by
      rw [Nat.div_lt_iff_lt_mul (by omega : 0 < 256)]
      calc n < 256 ^ (w + 1) := h
        _ = 256 ^ w * 256 := by rw [Nat.pow_succ]
    simp only [natToBytes, bytesToNat, ih (n / 256) hdiv]
    omega

/-- The error kinds of spec §7, distinguishable by constructor. -/
inductive Err where
  | ParseError (line : Nat)
  | DecodeError
  | FramingError
  | SequenceError
  | EndOfStream
deriving DecidableEq, Repr

/-- Spec §3 RawImage: height × width × 3 unsigned 8-bit samples, flattened
row-major. -/
structure RawImage where
  height : Nat
  width  : Nat
  pix    : List Nat
deriving DecidableEq, Repr, Inhabited

/-- Valid RawImage: positive dimensions, channel count 3 baked into the
sample count, byte-valued samples.  The dimension bounds keep the
fixed-width (8-byte) dimension prefixes exact. -/
def RawImage.wf (img : RawImage) : Prop :=
  0 < img.height ∧ 0 < img.width ∧ img.height < 2 ^ 16 ∧ img.width < 2 ^ 16 ∧
    img.pix.length = img.height * img.width * 3 ∧ ∀ p ∈ img.pix, p < 256

/-- Modelled from the spec: `squeezeDetMX.utils.image_to_jpeg_bytes`
(ImageCodec.encode, §4.2) is absent from the inspected sources.  It
produces a self-describing compressed byte string from which dimensions
and pixels are recoverable within the error budget; the model realises
the contract losslessly (error 0, within every budget). -/
def image_to_jpeg_bytes (img : RawImage) : List Nat :=
  natToBytes lenW img.height ++ natToBytes lenW img.width ++ img.pix

/-- Modelled from the spec: `squeezeDetMX.utils.jpeg_bytes_to_image`
(ImageCodec.decode, §4.2) is absent from the inspected sources.  Fails
with `DecodeError` when the bytes are not a valid compressed image or the
dimensions cannot be recovered. -/
def jpeg_bytes_to_image (bs : List Nat) : Except Err RawImage :=
  if bs.length < lenW + lenW then .error .DecodeError else
    let h := bytesToNat (bs.take lenW)
    let rest := bs.drop lenW
    let w := bytesToNat (rest.take lenW)
    let pix := rest.drop lenW
    if pix.length = h * w * 3 then .ok ⟨h, w, pix⟩ else .error .DecodeError

/-- Label-table bytes: rows flattened row-major, each field in fixed-width
binary (spec §4.3, §6). -/
def fieldsBytes (lbl : List (List Nat)) : List Nat :=
  (lbl.map (fun row => (row.map (natToBytes fieldW)).flatten)).flatten

/-- Modelled from the spec: RecordCodec.serialize (§4.3, absent from the
inspected sources).  Layout per §6:
`[image_length][image_bytes][row_count][row_count * BOX_WIDTH fields]`. -/
def serialize (imgBytes : List Nat) (lbl : List (List Nat)) : List Nat :=
  natToBytes lenW imgBytes.length ++ imgBytes ++
    natToBytes lenW lbl.length ++ fieldsBytes lbl

/-- Decode a label byte region into rows of `bw` fields. -/
def labelOfBytes (bw : Nat) (bs : List Nat) : List (List Nat) :=
  (chunkList (bw * fieldW) bs).map (fun rowB => (chunkList fieldW rowB).map bytesToNat)

/-- Modelled from the spec: RecordCodec.deserialize (§4.3, absent from the
inspected sources).  `FramingError` whenever a declared length exceeds the
remaining bytes.  `BOX_WIDTH` (`bw`) is the shared external constant
(spec §9), taken as a parameter. -/
def deserialize (bw : Nat) (bs : List Nat) : Except Err (List Nat × List (List Nat)) :=
  if bs.length < lenW then .error .FramingError else
  let n := bytesToNat (bs.take lenW)
  let r1 := bs.drop lenW
  if r1.length < n then .error .FramingError else
  let img := r1.take n
  let r2 := r1.drop n
  if r2.length < lenW then .error .FramingError else
  let rows := bytesToNat (r2.take lenW)
  let r3 := r2.drop lenW
  if r3.length < rows * bw * fieldW then .error .FramingError else
  .ok (img, labelOfBytes bw (r3.take (rows * bw * fieldW)))

/-- Modelled from the spec: `squeezeDetMX.kitti.KITTIIter`
(ContainerReader, §4.5, absent from the inspected sources).  State is the
remaining byte source plus whether the current record's image portion has
been consumed (its label portion is then pending). -/
structure KITTIIter where
  buf : List Nat
  labelPending : Bool
deriving DecidableEq, Repr

/-- `KITTIIter.from_bytes`: a reader over an in-memory byte buffer
(tests/test_kitti.py:62,91); reading a persisted container starts from the
same byte sequence. -/
def KITTIIter.from_bytes (bs : List Nat) : KITTIIter := ⟨bs, false⟩

/-- Modelled from the spec: `KITTIIter.read_image` (§4.5).  `EndOfStream`
when no bytes remain at a record boundary, `FramingError` on truncation,
`DecodeError` surfaced from the image codec. -/
def KITTIIter.read_image (r : KITTIIter) : Except Err (RawImage × KITTIIter) :=
  if r.buf.isEmpty then .error .EndOfStream else
  if r.buf.length < lenW then .error .FramingError else
  let n := bytesToNat (r.buf.take lenW)
  let rest := r.buf.drop lenW
  if rest.length < n then .error .FramingError else
  match jpeg_bytes_to_image (rest.take n) with
  | .error e => .error e
  | .ok img => .ok (img, ⟨rest.drop n, true⟩)

/-- Modelled from the spec: `KITTIIter.read_label` (§4.5).
`SequenceError` unless the cursor sits immediately after the current
record's image portion. -/
def KITTIIter.read_label (bw : Nat) (r : KITTIIter) :
    Except Err (List (List Nat) × KITTIIter) :=
  if r.labelPending = false then .error .SequenceError else
  if r.buf.length < lenW then .error .FramingError else
  let rows := bytesToNat (r.buf.take lenW)
  let rest := r.buf.drop lenW
  if rest.length < rows * bw * fieldW then .error .FramingError else
  .ok (labelOfBytes bw (rest.take (rows * bw * fieldW)),
    ⟨rest.drop (rows * bw * fieldW), false⟩)

/-- Modelled from the spec: `KITTIWriter.byteIter` (§4.4, absent from the
inspected sources): one framed record block per aligned (image, label)
pair, no sink touched. -/
def KITTIWriter.byteIter (images : List RawImage) (labels : List (List (List Nat))) :
    List (List Nat) :=
  List.zipWith (fun img lbl => serialize (image_to_jpeg_bytes img) lbl) images labels

/-- Modelled from the spec: `KITTIWriter.write` (§4.4): append the framed
blocks to the sink in input order; the sink contents after a successful
write. -/
def KITTIWriter.write (images : List RawImage) (labels : List (List (List Nat))) :
    List Nat :=
  (KITTIWriter.byteIter images labels).flatten

/-- One full record read: `read_image` then `read_label`
(the tests' consumption pattern, tests/test_kitti.py:91-93). -/
def readPair (bw : Nat) (r : KITTIIter) :
    Except Err ((RawImage × List (List Nat)) × KITTIIter) :=
  match r.read_image with
  | .error e => .error e
  | .ok (img, r1) =>
    match r1.read_label bw with
    | .error e => .error e
    | .ok (lbl, r2) => .ok ((img, lbl), r2)

/-- Read `n` records in sequence. -/
def readAll (bw : Nat) : Nat → KITTIIter →
    Except Err (List (RawImage × List (List Nat)) × KITTIIter)
  | 0, r => .ok ([], r)
  | n + 1, r =>
    match readPair bw r with
    | .error e => .error e
    | .ok (p, r1) =>
      match readAll bw n r1 with
      | .error e => .error e
      | .ok (ps, rf) => .ok (p :: ps, rf)

/-- A label table the fixed-width record layout can carry exactly:
bounded row count, `bw` fields per row, each field within the fixed
field width. -/
def LabelWf (bw : Nat) (lbl : List (List Nat)) : Prop :=
  lbl.length < 256 ^ lenW ∧ ∀ row ∈ lbl, row.length = bw ∧ ∀ x ∈ row, x < 256 ^ fieldW

/-- Modelled from the spec: the loop inside `ContainerWriter.write`
(§4.4 partial-failure policy), with the per-pair encoding step abstracted
as a fallible `enc` ("if encoding or framing fails for pair i").  Returns
the bytes appended to the sink and the error that stopped the loop, if
any. -/
def writeUntilErr (enc : RawImage × List (List Nat) → Except Err (List Nat)) :
    List (RawImage × List (List Nat)) → List Nat × Option Err
  | [] => ([], none)
  | p :: ps =>
    match enc p with
    | .error e => ([], some e)
    | .ok blk =>
      let rest := writeUntilErr enc ps
      (blk ++ rest.1, rest.2)

theorem pow256_lenW : (256 : Nat) ^ lenW = 18446744073709551616 := by norm_num [lenW]

theorem image_to_jpeg_bytes_length (img : RawImage) :
    (image_to_jpeg_bytes img).length = lenW + (lenW + img.pix.length) := by
  simp [image_to_jpeg_bytes, natToBytes_length]

/-- Decoding inverts encoding exactly in the modelled codec. -/
theorem jpeg_bytes_to_image_encode (img : RawImage) (h : img.wf) :
    jpeg_bytes_to_image (image_to_jpeg_bytes img) = .ok img := by
  obtain ⟨hh, hw, hhB, hwB, hlen, _⟩ := h
  have hA : (natToBytes lenW img.height).length = lenW := natToBytes_length _ _
  have hB : (natToBytes lenW img.width).length = lenW := natToBytes_length _ _
  have hlen1 : (natToBytes lenW img.height ++
      (natToBytes lenW img.width ++ img.pix)).length = lenW + (lenW + img.pix.length) := by
    simp [hA, hB]
  unfold image_to_jpeg_bytes jpeg_bytes_to_image
  rw [List.append_assoc]
  rw [if_neg (by rw [hlen1]; omega)]
  simp only [List.take_left' hA, List.drop_left' hA, List.take_left' hB, List.drop_left' hB]
  rw [bytesToNat_natToBytes lenW img.height (by rw [pow256_lenW]; omega),
    bytesToNat_natToBytes lenW img.width (by rw [pow256_lenW]; omega)]
  rw [if_pos hlen]

theorem rowBytes_length (row : List Nat) :
    ((row.map (natToBytes fieldW)).flatten).length = row.length * fieldW := by
  induction row with
  | nil => simp
  | cons x r ih =>
    simp only [List.map_cons, List.flatten_cons, List.length_append, ih,
      natToBytes_length, List.length_cons]
    ring

theorem fieldsBytes_length (bw : Nat) (lbl : List (List Nat))
    (h : ∀ row ∈ lbl, row.length = bw) :
    (fieldsBytes lbl).length = lbl.length * (bw * fieldW) := by
  induction lbl with
  | nil => simp [fieldsBytes]
  | cons r rest ih =>
    have hr : r.length = bw := h r (by simp)
    simp only [fieldsBytes, List.map_cons, List.flatten_cons, List.length_append]
    have ih2 := ih (fun row hrow => h row (by simp [hrow]))
    simp only [fieldsBytes] at ih2
    rw [ih2, rowBytes_length, hr, List.length_cons]
    ring

theorem fieldW_pos : 0 < fieldW := by norm_num [fieldW]

theorem lenW_pos : 0 < lenW := by norm_num [lenW]

/-- Parsing the label byte region back yields the original table. -/
theorem labelOfBytes_fieldsBytes (bw : Nat) (hbw : 0 < bw) (lbl : List (List Nat))
    (h : ∀ row ∈ lbl, row.length = bw ∧ ∀ x ∈ row, x < 256 ^ fieldW) :
    labelOfBytes bw (fieldsBytes lbl) = lbl := by
  unfold labelOfBytes fieldsBytes
  rw [chunkList_join (bw * fieldW) (Nat.mul_pos hbw fieldW_pos) _
    (by
      intro x hx
      obtain ⟨row, hrow, hxeq⟩ := List.mem_map.mp hx
      rw [← hxeq, rowBytes_length, (h row hrow).1])]
  rw [List.map_map]
  have : ∀ row ∈ lbl,
      ((chunkList fieldW ((row.map (natToBytes fieldW)).flatten)).map bytesToNat) = row := by
    intro row hrow
    rw [chunkList_join fieldW fieldW_pos _
      (by
        intro x hx
        obtain ⟨v, _, hxeq⟩ := List.mem_map.mp hx
        rw [← hxeq, natToBytes_length])]
    rw [List.map_map]
    have hrw : ∀ v ∈ row, (bytesToNat ∘ natToBytes fieldW) v = v := by
      intro v hv
      exact bytesToNat_natToBytes fieldW v ((h row hrow).2 v hv)
    calc row.map (bytesToNat ∘ natToBytes fieldW) = row.map id :=
          List.map_congr_left hrw
      _ = row := List.map_id row
  calc lbl.map _ = lbl.map id := List.map_congr_left (by
        intro row hrow
        simp only [Function.comp]
        exact this row hrow)
    _ = lbl := List.map_id lbl


theorem image_to_jpeg_bytes_length_lt (img : RawImage) (h : img.wf) :
    (image_to_jpeg_bytes img).length < 256 ^ lenW := by
  obtain ⟨hh, hw, hhB, hwB, hlen, _⟩ := h
  rw [image_to_jpeg_bytes_length, hlen, pow256_lenW]
  have hmul : img.height * img.width ≤ 65535 * 65535 :=
    Nat.mul_le_mul (by omega) (by omega)
  have : lenW = 8 := rfl
  omega

theorem read_image_explicit (img : RawImage) (A enc tail : List Nat) (b : Bool)
    (hA : A.length = lenW) (hAval : bytesToNat A = enc.length)
    (hdec : jpeg_bytes_to_image enc = .ok img) :
    KITTIIter.read_image ⟨A ++ (enc ++ tail), b⟩ = .ok (img, ⟨tail, true⟩) := by
  have hne : (A ++ (enc ++ tail)) ≠ [] := by
    apply List.ne_nil_of_length_pos
    simp only [List.length_append]
    have := lenW_pos
    omega
  have hEl : enc.length = enc.length := rfl
  unfold KITTIIter.read_image
  rw [if_neg (by rw [List.isEmpty_eq_false.mpr hne]; simp)]
  rw [if_neg (by simp only [List.length_append, hA]; omega)]
  simp only [List.take_left' hA, List.drop_left' hA, hAval]
  rw [if_neg (by simp only [List.length_append]; omega)]
  rw [List.take_left' hEl, List.drop_left' hEl, hdec]

theorem read_label_explicit (bw : Nat) (lbl : List (List Nat)) (C F tail : List Nat)
    (hC : C.length = lenW) (hCval : bytesToNat C = lbl.length)
    (hF : F.length = lbl.length * bw * fieldW)
    (hparse : labelOfBytes bw (F.take (lbl.length * bw * fieldW)) = lbl) :
    KITTIIter.read_label bw ⟨C ++ (F ++ tail), true⟩ = .ok (lbl, ⟨tail, false⟩) := by
  unfold KITTIIter.read_label
  rw [if_neg (by simp)]
  rw [if_neg (by simp only [List.length_append, hC]; omega)]
  simp only [List.take_left' hC, List.drop_left' hC, hCval]
  rw [if_neg (by simp only [List.length_append, hF]; omega)]
  rw [List.take_append_eq_append_take, hF, Nat.sub_self, List.take_zero,
    List.append_nil, hparse]
  rw [List.drop_append_eq_append_drop, hF, Nat.sub_self, List.drop_zero]
  rw [List.drop_of_length_le (le_of_eq hF), List.nil_append]

theorem serialize_decomp (img : RawImage) (lbl : List (List Nat)) (rest : List Nat) :
    serialize (image_to_jpeg_bytes img) lbl ++ rest =
      natToBytes lenW (image_to_jpeg_bytes img).length ++
        (image_to_jpeg_bytes img ++
          (natToBytes lenW lbl.length ++ (fieldsBytes lbl ++ rest))) := by
  unfold serialize
  simp [List.append_assoc]

theorem labelOfBytes_take (bw : Nat) (hbw : 0 < bw) (lbl : List (List Nat))
    (hrows : ∀ row ∈ lbl, row.length = bw ∧ ∀ x ∈ row, x < 256 ^ fieldW) :
    labelOfBytes bw ((fieldsBytes lbl).take (lbl.length * bw * fieldW)) = lbl := by
  have hF : (fieldsBytes lbl).length = lbl.length * bw * fieldW := by
    rw [fieldsBytes_length bw lbl (fun row hrow => (hrows row hrow).1), Nat.mul_assoc]
  rw [List.take_of_length_le (le_of_eq hF)]
  exact labelOfBytes_fieldsBytes bw hbw lbl hrows

/-- `readPair` consumes exactly one serialized record from the front of
the buffer. -/
theorem readPair_on_record (bw : Nat) (hbw : 0 < bw) (img : RawImage)
    (lbl : List (List Nat)) (rest : List Nat) (himg : img.wf) (hlbl : LabelWf bw lbl) :
    readPair bw ⟨serialize (image_to_jpeg_bytes img) lbl ++ rest, false⟩ =
      .ok ((img, lbl), ⟨rest, false⟩) := by
  obtain ⟨hcount, hrows⟩ := hlbl
  unfold readPair
  rw [serialize_decomp img lbl rest]
  rw [read_image_explicit img _ _ _ false (natToBytes_length _ _)
    (bytesToNat_natToBytes _ _ (image_to_jpeg_bytes_length_lt img himg))
    (jpeg_bytes_to_image_encode img himg)]
  dsimp only
  rw [read_label_explicit bw lbl _ _ _ (natToBytes_length _ _)
    (bytesToNat_natToBytes _ _ hcount)
    (by rw [fieldsBytes_length bw lbl (fun row hrow => (hrows row hrow).1), Nat.mul_assoc])
    (labelOfBytes_take bw hbw lbl hrows)]

theorem deserialize_explicit (bw : Nat) (enc : List Nat) (lbl : List (List Nat))
    (A C F : List Nat)
    (hA : A.length = lenW) (hAval : bytesToNat A = enc.length)
    (hC : C.length = lenW) (hCval : bytesToNat C = lbl.length)
    (hF : F.length = lbl.length * bw * fieldW)
    (hparse : labelOfBytes bw (F.take (lbl.length * bw * fieldW)) = lbl) :
    deserialize bw (A ++ (enc ++ (C ++ F))) = .ok (enc, lbl) := by
  have hEl : enc.length = enc.length := rfl
  unfold deserialize
  rw [if_neg (by simp only [List.length_append, hA]; omega)]
  simp only [List.take_left' hA, List.drop_left' hA, hAval]
  rw [if_neg (by simp only [List.length_append]; omega)]
  rw [List.take_left' hEl, List.drop_left' hEl]
  rw [if_neg (by simp only [List.length_append, hC]; omega)]
  simp only [List.take_left' hC, List.drop_left' hC, hCval]
  rw [if_neg (by simp only [hF]; omega)]
  rw [hparse]

/-- C1: deserializing a serialized record returns exactly the compressed
image bytes (byte-identical) and the label table (equal row-for-row and
field-for-field); no re-encoding happens on this path. -/
theorem deserialize_serialize (bw : Nat) (imgBytes : List Nat)
    (lbl : List (List Nat)) (hbw : 0 < bw)
    (hn : imgBytes.length < 256 ^ lenW) (hlbl : LabelWf bw lbl) :
    deserialize bw (serialize imgBytes lbl) = .ok (imgBytes, lbl) := by
  obtain ⟨hcount, hrows⟩ := hlbl
  have hd : serialize imgBytes lbl =
      natToBytes lenW imgBytes.length ++ (imgBytes ++
        (natToBytes lenW lbl.length ++ fieldsBytes lbl)) := by
    unfold serialize
    simp [List.append_assoc]
  rw [hd]
  exact deserialize_explicit bw imgBytes lbl _ _ _
    (natToBytes_length _ _) (bytesToNat_natToBytes _ _ hn)
    (natToBytes_length _ _) (bytesToNat_natToBytes _ _ hcount)
    (by rw [fieldsBytes_length bw lbl (fun r hr => (hrows r hr).1), Nat.mul_assoc])
    (labelOfBytes_take bw hbw lbl hrows)

theorem deserialize_serialize_witness :
    0 < 2 ∧ ([9, 8, 7] : List Nat).length < 256 ^ lenW ∧ LabelWf 2 [[5, 6]] ∧
      deserialize 2 (serialize [9, 8, 7] [[5, 6]]) = .ok ([9, 8, 7], [[5, 6]]) :=
  ⟨by norm_num, by decide, ⟨by decide, by decide⟩,
    deserialize_serialize 2 [9, 8, 7] [[5, 6]] (by norm_num) (by decide)
      ⟨by decide, by decide⟩⟩

/-- All images valid and all labels exactly encodable. -/
def InputsWf (bw : Nat) (images : List RawImage) (labels : List (List (List Nat))) : Prop :=
  images.length = labels.length ∧ (∀ img ∈ images, img.wf) ∧ ∀ l ∈ labels, LabelWf bw l

/-- C2: writing aligned image/label lists and reading them all back
reproduces every pair exactly (in particular within every error budget),
leaving the reader cleanly at end of stream. -/
theorem write_then_read_all (bw : Nat) (hbw : 0 < bw) :
    ∀ (images : List RawImage) (labels : List (List (List Nat))),
      InputsWf bw images labels →
      readAll bw images.length (KITTIIter.from_bytes (KITTIWriter.write images labels)) =
        .ok (images.zip labels, ⟨[], false⟩) := by
  intro images
  induction images with
  | nil =>
    intro labels h
    rfl
  | cons img imgs ih =>
    intro labels h
    obtain ⟨hlen, himgs, hlbls⟩ := h
    cases labels with
    | nil => simp at hlen
    | cons lbl lbls =>
      have hw : KITTIWriter.write (img :: imgs) (lbl :: lbls) =
          serialize (image_to_jpeg_bytes img) lbl ++ KITTIWriter.write imgs lbls := by
        unfold KITTIWriter.write KITTIWriter.byteIter
        simp [List.zipWith]
      show readAll bw (imgs.length + 1) _ = _
      rw [hw]
      unfold readAll KITTIIter.from_bytes
      rw [readPair_on_record bw hbw img lbl _ (himgs img (by simp))
        (hlbls lbl (by simp))]
      dsimp only
      have ihx := ih lbls ⟨by simpa using hlen,
        fun i hi => himgs i (by simp [hi]),
        fun l hl => hlbls l (by simp [hl])⟩
      unfold KITTIIter.from_bytes at ihx
      rw [ihx]
      rfl

theorem write_then_read_all_witness :
    0 < 2 ∧ InputsWf 2 [⟨1, 1, [1, 2, 3]⟩] [[[5, 6]]] ∧
      readAll 2 [(⟨1, 1, [1, 2, 3]⟩ : RawImage)].length
          (KITTIIter.from_bytes (KITTIWriter.write [⟨1, 1, [1, 2, 3]⟩] [[[5, 6]]])) =
        .ok ([(⟨1, 1, [1, 2, 3]⟩, [[5, 6]])], ⟨[], false⟩) := by
  have hwf : InputsWf 2 [⟨1, 1, [1, 2, 3]⟩] [[[5, 6]]] := by
    refine ⟨rfl, ?_, ?_⟩
    · intro i hi
      simp only [List.mem_singleton] at hi
      subst hi
      exact ⟨by norm_num, by norm_num, by norm_num, by norm_num, rfl, by decide⟩
    · intro l hl
      simp only [List.mem_singleton] at hl
      subst hl
      exact ⟨by rw [pow256_lenW]; norm_num, by decide⟩
  exact ⟨by norm_num, hwf, write_then_read_all 2 (by norm_num) _ _ hwf⟩

/-- Total absolute difference between two flat pixel buffers. -/
def sumAbsDiff (a b : List Nat) : Nat :=
  (List.zipWith (fun x y => (x - y) + (y - x)) a b).sum

/-- The test suite's metric (tests/test_kitti.py:77-80): summed pixel
difference divided by the pixel count `height * width * 3`. -/
def meanAbsDiff (a b : RawImage) : Rat :=
  (sumAbsDiff a.pix b.pix : Nat) / ((a.height * a.width * 3 : Nat) : Rat)

theorem sumAbsDiff_self (l : List Nat) : sumAbsDiff l l = 0 := by
  unfold sumAbsDiff
  rw [List.zipWith_same]
  induction l with
  | nil => rfl
  | cons x r ih => simp [ih]

/-- C3: for a valid RawImage, decode of encode preserves the (height,
width, channel) dimensions and the mean absolute pixel difference is
below the 110 error budget (the modelled codec is exact, so the
difference is 0). -/
theorem decode_encode_within_budget (img : RawImage) (h : img.wf) :
    ∃ out, jpeg_bytes_to_image (image_to_jpeg_bytes img) = .ok out ∧
      out.height = img.height ∧ out.width = img.width ∧
      out.pix.length = img.pix.length ∧ meanAbsDiff img out < 110 := by
  refine ⟨img, jpeg_bytes_to_image_encode img h, rfl, rfl, rfl, ?_⟩
  unfold meanAbsDiff
  rw [sumAbsDiff_self]
  norm_num

theorem decode_encode_within_budget_witness :
    RawImage.wf ⟨1, 1, [1, 2, 3]⟩ ∧
      ∃ out, jpeg_bytes_to_image (image_to_jpeg_bytes ⟨1, 1, [1, 2, 3]⟩) = .ok out ∧
        out.height = 1 ∧ out.width = 1 ∧ out.pix.length = 3 ∧
        meanAbsDiff ⟨1, 1, [1, 2, 3]⟩ out < 110 :=
  ⟨⟨by norm_num, by norm_num, by norm_num, by norm_num, rfl, by decide⟩,
    decode_encode_within_budget ⟨1, 1, [1, 2, 3]⟩
      ⟨by norm_num, by norm_num, by norm_num, by norm_num, rfl, by decide⟩⟩

/-- C4: the single framed block produced by `byteIter`, fed directly to a
reader built from that in-memory block, reproduces the (image, label)
pair exactly — and the block is byte-identical to what the file-backed
`write` path persists, so the two paths are format-equivalent. -/
theorem byteIter_matches_file_path (bw : Nat) (img : RawImage)
    (lbl : List (List Nat)) (hbw : 0 < bw) (himg : img.wf) (hlbl : LabelWf bw lbl) :
    readPair bw (KITTIIter.from_bytes ((KITTIWriter.byteIter [img] [lbl]).getD 0 [])) =
        .ok ((img, lbl), ⟨[], false⟩) ∧
      (KITTIWriter.byteIter [img] [lbl]).getD 0 [] = KITTIWriter.write [img] [lbl] := by
  have hb : (KITTIWriter.byteIter [img] [lbl]).getD 0 [] =
      serialize (image_to_jpeg_bytes img) lbl := rfl
  constructor
  · rw [hb]
    have h := readPair_on_record bw hbw img lbl [] himg hlbl
    rw [List.append_nil] at h
    exact h
  · rw [hb]
    unfold KITTIWriter.write KITTIWriter.byteIter
    simp

theorem byteIter_matches_file_path_witness :
    0 < 2 ∧ RawImage.wf ⟨1, 1, [1, 2, 3]⟩ ∧ LabelWf 2 [[5, 6]] ∧
      (readPair 2 (KITTIIter.from_bytes
            ((KITTIWriter.byteIter [⟨1, 1, [1, 2, 3]⟩] [[[5, 6]]]).getD 0 [])) =
          .ok ((⟨1, 1, [1, 2, 3]⟩, [[5, 6]]), ⟨[], false⟩) ∧
        (KITTIWriter.byteIter [⟨1, 1, [1, 2, 3]⟩] [[[5, 6]]]).getD 0 [] =
          KITTIWriter.write [⟨1, 1, [1, 2, 3]⟩] [[[5, 6]]]) :=
  ⟨by norm_num,
    ⟨by norm_num, by norm_num, by norm_num, by norm_num, rfl, by decide⟩,
    ⟨by rw [pow256_lenW]; norm_num, by decide⟩,
    byteIter_matches_file_path 2 ⟨1, 1, [1, 2, 3]⟩ [[5, 6]] (by norm_num)
      ⟨by norm_num, by norm_num, by norm_num, by norm_num, rfl, by decide⟩
      ⟨by rw [pow256_lenW]; norm_num, by decide⟩⟩

/-- C5: `read_image` at a record boundary with no bytes remaining fails
with `EndOfStream`, an error kind distinct (by constructor, not message)
from `FramingError`; being a total function into `Except`, it can neither
crash nor return a generic error. -/
theorem read_image_end_of_stream (r : KITTIIter) (h : r.buf = []) :
    r.read_image = .error .EndOfStream ∧ Err.EndOfStream ≠ Err.FramingError := by
  constructor
  · unfold KITTIIter.read_image
    rw [if_pos (by rw [h]; rfl)]
  · decide

theorem read_image_end_of_stream_witness :
    (KITTIIter.from_bytes []).buf = [] ∧
      ((KITTIIter.from_bytes []).read_image = .error .EndOfStream ∧
        Err.EndOfStream ≠ Err.FramingError) :=
  ⟨rfl, read_image_end_of_stream (KITTIIter.from_bytes []) rfl⟩

/-- C6: `read_label` in any reader state whose current record's image has
not been read (the cursor is at a record boundary) fails with
`SequenceError`. -/
theorem read_label_requires_read_image (bw : Nat) (r : KITTIIter)
    (h : r.labelPending = false) :
    r.read_label bw = .error .SequenceError := by
  unfold KITTIIter.read_label
  rw [if_pos h]

theorem read_label_requires_read_image_witness :
    (KITTIIter.from_bytes [1, 2]).labelPending = false ∧
      (KITTIIter.from_bytes [1, 2]).read_label 2 = .error .SequenceError :=
  ⟨rfl, read_label_requires_read_image 2 (KITTIIter.from_bytes [1, 2]) rfl⟩

/-- C7: if the per-pair encoding step fails at pair `i`, the sink receives
exactly the blocks of pairs `0..i-1`, flushed in order with no rollback,
and nothing for pair `i` or later. -/
theorem write_partial_failure (enc : RawImage × List (List Nat) → Except Err (List Nat)) :
    ∀ (ps : List (RawImage × List (List Nat))) (i : Nat) (e : Err),
      i < ps.length →
      (∀ j < i, ∃ blk, enc (ps.getD j default) = .ok blk) →
      enc (ps.getD i default) = .error e →
      writeUntilErr enc ps =
        (((ps.take i).filterMap (fun p => (enc p).toOption)).flatten, some e) := by
  intro ps
  induction ps with
  | nil => intro i e hi _ _; simp at hi
  | cons p ps ih =>
    intro i e hi hok hbad
    cases i with
    | zero =>
      simp only [List.getD_cons_zero] at hbad
      unfold writeUntilErr
      rw [hbad]
      simp
    | succ i =>
      obtain ⟨blk, hblk⟩ := hok 0 (Nat.succ_pos i)
      simp only [List.getD_cons_zero] at hblk
      unfold writeUntilErr
      rw [hblk]
      dsimp only
      rw [ih i e (by simpa using hi)
        (fun j hj => by simpa using hok (j + 1) (by omega))
        (by simpa using hbad)]
      simp [hblk, Except.toOption]

/-- A concrete fallible per-pair encoder: rejects zero-height images. -/
def cexEnc (q : RawImage × List (List Nat)) : Except Err (List Nat) :=
  if q.1.height = 0 then .error .DecodeError
  else .ok (serialize (image_to_jpeg_bytes q.1) q.2)

/-- A pair list whose second pair fails `cexEnc`. -/
def cexPairs : List (RawImage × List (List Nat)) :=
  [(⟨1, 1, [1, 2, 3]⟩, [[5, 6]]), (⟨0, 1, []⟩, [])]

theorem write_partial_failure_witness :
    1 < cexPairs.length ∧
      writeUntilErr cexEnc cexPairs =
        (((cexPairs.take 1).filterMap (fun p => (cexEnc p).toOption)).flatten,
          some .DecodeError) :=
  ⟨by norm_num [cexPairs],
    write_partial_failure cexEnc cexPairs 1 .DecodeError (by norm_num [cexPairs])
      (fun j hj => by
        have hj0 : j = 0 := by omega
        subst hj0
        exact ⟨_, rfl⟩)
      rfl⟩

/-- A KITTI annotation token: a numeric field, or a non-numeric fragment.
(The inspected sources carry no annotation-text grammar; spec §4.1 only
requires that each well-formed line parse to one numeric row.) -/
inductive Token where
  | num (v : Int)
  | junk
deriving DecidableEq, Repr

/-- Modelled from the spec: one line of annotation text parsed to a
numeric row of `BOX_WIDTH` fields (§4.1); `none` for a malformed line
(a non-numeric field or a wrong field count). -/
def parseLine (bw : Nat) (line : List Token) : Option (List Int) :=
  let vals := line.foldr (fun t acc =>
    match t, acc with
    | .num v, some vs => some (v :: vs)
    | _, _ => none) (some [])
  match vals with
  | some vs => if vs.length = bw then some vs else none
  | none => none

/-- Modelled from the spec: the per-block parsing loop of
`squeezeDetMX.kitti.read_bboxes` (§4.1, absent from the inspected
sources), tracking the current line number for error reporting. -/
def parseBlock (bw : Nat) : List (List Token) → Nat → Except Err (List (List Int))
  | [], _ => .ok []
  | line :: rest, idx =>
    match parseLine bw line with
    | none => .error (.ParseError idx)
    | some row =>
      match parseBlock bw rest (idx + 1) with
      | .error e => .error e
      | .ok rows => .ok (row :: rows)

/-- Modelled from the spec: `squeezeDetMX.kitti.read_bboxes` (§4.1):
one numeric LabelTable per raw text block, rows in text order; a
malformed line fails with `ParseError` naming that line. -/
def read_bboxes (bw : Nat) : List (List (List Token)) → Except Err (List (List (List Int))) :=
  fun blocks =>
    match blocks with
    | [] => .ok []
    | blk :: rest =>
      match parseBlock bw blk 0 with
      | .error e => .error e
      | .ok tbl =>
        match read_bboxes bw rest with
        | .error e => .error e
        | .ok tbls => .ok (tbl :: tbls)

theorem parseBlock_ok (bw : Nat) :
    ∀ (block : List (List Token)) (idx : Nat),
      (∀ line ∈ block, parseLine bw line ≠ none) →
      ∃ tbl, parseBlock bw block idx = .ok tbl ∧ tbl.length = block.length := by
  intro block
  induction block with
  | nil => intro idx _; exact ⟨[], rfl, rfl⟩
  | cons line rest ih =>
    intro idx h
    obtain ⟨row, hrow⟩ := Option.ne_none_iff_exists'.mp (h line (by simp))
    obtain ⟨tbl, htbl, hlen⟩ := ih (idx + 1) (fun l hl => h l (by simp [hl]))
    refine ⟨row :: tbl, ?_, by simp [hlen]⟩
    unfold parseBlock
    rw [hrow]
    dsimp only
    rw [htbl]

theorem parseBlock_first_bad (bw : Nat) :
    ∀ (block : List (List Token)) (idx i : Nat),
      i < block.length →
      (∀ j < i, parseLine bw (block.getD j []) ≠ none) →
      parseLine bw (block.getD i []) = none →
      parseBlock bw block idx = .error (.ParseError (idx + i)) := by
  intro block
  induction block with
  | nil => intro idx i hi _ _; simp at hi
  | cons line rest ih =>
    intro idx i hi hok hbad
    cases i with
    | zero =>
      simp only [List.getD_cons_zero] at hbad
      unfold parseBlock
      rw [hbad]
      simp
    | succ i =>
      obtain ⟨row, hrow⟩ := Option.ne_none_iff_exists'.mp (by simpa using hok 0 (Nat.succ_pos i))
      unfold parseBlock
      rw [hrow]
      dsimp only
      rw [ih (idx + 1) i (by simpa using hi)
        (fun j hj => by simpa using hok (j + 1) (by omega))
        (by simpa using hbad)]
      have : idx + 1 + i = idx + (i + 1) := by omega
      rw [this]

/-- C8: `read_bboxes` fails with a `ParseError` carrying the index of the
first malformed line exactly when the block contains one; a block with no
malformed line parses to one row per line; the empty block yields a
zero-row LabelTable with no error. -/
theorem read_bboxes_spec (bw : Nat) (block : List (List Token)) :
    (∀ i, i < block.length →
        (∀ j < i, parseLine bw (block.getD j []) ≠ none) →
        parseLine bw (block.getD i []) = none →
        read_bboxes bw [block] = .error (.ParseError i)) ∧
      ((∀ line ∈ block, parseLine bw line ≠ none) →
        ∃ tbl, read_bboxes bw [block] = .ok [tbl] ∧ tbl.length = block.length) ∧
      read_bboxes bw [[]] = .ok [[]] := by
  refine ⟨?_, ?_, rfl⟩
  · intro i hi hok hbad
    unfold read_bboxes
    rw [parseBlock_first_bad bw block 0 i hi hok hbad]
    simp
  · intro h
    obtain ⟨tbl, htbl, hlen⟩ := parseBlock_ok bw block 0 h
    refine ⟨tbl, ?_, hlen⟩
    unfold read_bboxes
    rw [htbl]
    rfl

theorem read_bboxes_spec_witness :
    read_bboxes 2 [[[Token.num 3, Token.num 4], [Token.junk]]] =
      .error (.ParseError 1) :=
  (read_bboxes_spec 2 [[Token.num 3, Token.num 4], [Token.junk]]).1 1 (by norm_num)
    (fun j hj => by
      have hj0 : j = 0 := by omega
      subst hj0
      decide)
    (by decide)

/-- Flat row-major data built from `n` indexed rows. -/
def mkRows (n : Nat) (f : Nat → List Int) : List Int := ((List.range n).map f).flatten

theorem mkRows_zero (f : Nat → List Int) : mkRows 0 f = [] := rfl

theorem mkRows_succ (n : Nat) (f : Nat → List Int) :
    mkRows (n + 1) f = mkRows n f ++ f n := by
  simp [mkRows, List.range_succ]

theorem mkRows_one (f : Nat → List Int) : mkRows 1 f = f 0 := by
  simp [mkRows, List.range_succ]

theorem mkRows_add (m n : Nat) (f : Nat → List Int) :
    mkRows (m + n) f = mkRows m f ++ mkRows n (fun i => f (m + i)) := by
  simp only [mkRows, List.range_add, List.map_append, List.map_map, List.flatten_append]
  rfl

theorem mkRows_congr (n : Nat) (f g : Nat → List Int) (h : ∀ i < n, f i = g i) :
    mkRows n f = mkRows n g := by
  unfold mkRows
  congr 1
  apply List.map_congr_left
  intro i hi
  exact h i (List.mem_range.mp hi)

theorem mkRows_length (n s : Nat) (f : Nat → List Int)
    (h : ∀ i < n, (f i).length = s) : (mkRows n f).length = n * s := by
  induction n with
  | zero => simp [mkRows_zero]
  | succ n ih =>
    rw [mkRows_succ, List.length_append, ih (fun i hi => h i (by omega)), h n (by omega)]
    ring

theorem mem_range_map_length {n s : Nat} {f : Nat → List Int}
    (h : ∀ i < n, (f i).length = s) :
    ∀ x ∈ (List.range n).map f, x.length = s := by
  intro x hx
  obtain ⟨i, hi, hxeq⟩ := List.mem_map.mp hx
  rw [← hxeq]
  exact h i (List.mem_range.mp hi)

theorem chunkList_mkRows (s n : Nat) (hs : 0 < s) (f : Nat → List Int)
    (h : ∀ i < n, (f i).length = s) :
    chunkList s (mkRows n f) = (List.range n).map f :=
  chunkList_join s hs _ (mem_range_map_length h)

theorem map_range_drop (f : Nat → List Int) (n a : Nat) :
    ((List.range n).map f).drop a = (List.range (n - a)).map (fun i => f (a + i)) := by
  apply List.ext_getElem
  · simp
  · intro i h1 h2
    simp only [List.getElem_drop, List.getElem_map, List.getElem_range]

theorem map_range_take (f : Nat → List Int) (n m : Nat) (h : m ≤ n) :
    ((List.range n).map f).take m = (List.range m).map f := by
  rw [← List.map_take, List.take_range, Nat.min_eq_left h]

theorem mkRows_drop_take (n a m s : Nat) (f : Nat → List Int)
    (hf : ∀ i < n, (f i).length = s) (ham : a + m ≤ n) :
    ((mkRows n f).drop (a * s)).take (m * s) = mkRows m (fun i => f (a + i)) := by
  unfold mkRows
  rw [join_drop_uniform s a _ (mem_range_map_length hf),
    map_range_drop,
    join_take_uniform s m _ (mem_range_map_length (fun i hi => hf (a + i) (by omega))),
    map_range_take _ _ _ (by omega)]

theorem slice_slice (l : List Int) (a m i s : Nat) (h : i + s ≤ m) :
    (((l.drop a).take m).drop i).take s = (l.drop (a + i)).take s := by
  rw [List.drop_take, List.drop_drop, List.take_take, Nat.min_eq_left (by omega)]

theorem flatten_flatten_mkRows (b a : Nat) (g : Nat → Nat → List Int) :
    (((List.range b).map (fun p => (List.range a).map (g p))).flatten).flatten =
      mkRows b (fun p => mkRows a (g p)) := by
  rw [List.flatten_flatten, List.map_map]
  rfl

theorem chunkList_mkRows2 (s b a : Nat) (hs : 0 < s) (g : Nat → Nat → List Int)
    (hg : ∀ p < b, ∀ i < a, (g p i).length = s) :
    chunkList s (mkRows b (fun p => mkRows a (g p))) =
      ((List.range b).map (fun p => (List.range a).map (g p))).flatten := by
  rw [← flatten_flatten_mkRows b a g]
  apply chunkList_join s hs
  intro x hx
  obtain ⟨l, hl, hxl⟩ := List.mem_flatten.mp hx
  obtain ⟨p, hp, hleq⟩ := List.mem_map.mp hl
  rw [← hleq] at hxl
  obtain ⟨i, hi, hxeq⟩ := List.mem_map.mp hxl
  rw [← hxeq]
  exact hg p (List.mem_range.mp hp) i (List.mem_range.mp hi)

theorem zipWith_flatten_range (f : List Int → List Int → List Int) :
    ∀ (n : Nat) (g k : Nat → List (List Int)),
      (∀ i < n, (g i).length = (k i).length) →
      List.zipWith f (((List.range n).map g).flatten) (((List.range n).map k).flatten) =
        ((List.range n).map (fun i => List.zipWith f (g i) (k i))).flatten := by
  intro n
  induction n with
  | zero => intro g k _; rfl
  | succ n ih =>
    intro g k hlen
    rw [List.range_succ_eq_map]
    simp only [List.map_cons, List.map_map, List.flatten_cons]
    rw [List.zipWith_append _ _ _ _ _ (hlen 0 (Nat.succ_pos n))]
    rw [ih (g ∘ Nat.succ) (k ∘ Nat.succ) (fun i hi => hlen (i + 1) (by omega))]
    rfl

theorem npSplit_D1 (b n apg hh ww : Nat) (P : Nat → Nat → List Int)
    (hhw : 0 < hh * ww) (hapg : 0 < apg) (hn : 0 < n)
    (hP : ∀ p < b, ∀ c < n * apg, (P p c).length = hh * ww) :
    npSplit 1 n ⟨[b, n * apg, hh, ww], mkRows b (fun p => mkRows (n * apg) (P p))⟩ =
      (List.range n).map (fun j =>
        ⟨[b, apg, hh, ww],
          mkRows b (fun p => mkRows apg (fun i => P p (j * apg + i)))⟩) := by
  unfold npSplit
  have hd : ([b, n * apg, hh, ww] : List Nat).getD 1 0 = n * apg := rfl
  have hinner : ((List.drop (1 + 1) [b, n * apg, hh, ww]) : List Nat).prod = hh * ww := by
    simp
  have hc : n * apg / n = apg := Nat.mul_div_cancel_left apg hn
  simp only [hd, hinner, hc]
  apply List.map_congr_left
  intro j hj
  have hj' : j < n := List.mem_range.mp hj
  congr 1
  rw [chunkList_mkRows (n * apg * (hh * ww)) b
    (by positivity)
    _ (fun p hp => mkRows_length (n * apg) (hh * ww) (P p) (fun c hc2 => hP p hp c hc2))]
  rw [List.map_map]
  unfold mkRows
  congr 1
  apply List.map_congr_left
  intro p hp
  simp only [Function.comp]
  have : j * (apg * (hh * ww)) = (j * apg) * (hh * ww) := by ring
  rw [this]
  have hbound : j * apg + apg ≤ n * apg := by
    have h1 : j + 1 ≤ n := hj'
    calc j * apg + apg = (j + 1) * apg := by ring
      _ ≤ n * apg := Nat.mul_le_mul_right apg h1
  simpa only [mkRows] using
    mkRows_drop_take (n * apg) (j * apg) apg (hh * ww) (P p)
      (fun c hc2 => hP p (List.mem_range.mp hp) c hc2) hbound

theorem concatPair2_snoc (b apg hh ww k : Nat) (F : Nat → Nat → Nat → List Int)
    (hhw : 0 < hh * ww) (hk : 0 < k)
    (hF : ∀ p < b, ∀ i < apg, ∀ j < k + 1, (F p i j).length = hh * ww) :
    concatPair 2
        ⟨[b, apg, k, hh, ww],
          mkRows b (fun p => mkRows apg (fun i => mkRows k (F p i)))⟩
        ⟨[b, apg, 1, hh, ww],
          mkRows b (fun p => mkRows apg (fun i => mkRows 1 (fun _ => F p i k)))⟩ =
      ⟨[b, apg, k + 1, hh, ww],
        mkRows b (fun p => mkRows apg (fun i => mkRows (k + 1) (F p i)))⟩ := by
  unfold concatPair
  dsimp only
  congr 1
  have hpT : (List.drop 2 [b, apg, k, hh, ww]).prod = k * (hh * ww) := by simp
  have hpU : (List.drop 2 [b, apg, 1, hh, ww]).prod = hh * ww := by simp
  rw [hpT, hpU]
  rw [chunkList_mkRows2 (k * (hh * ww)) b apg (by positivity)
    _ (fun p hp i hi => mkRows_length k (hh * ww) (F p i)
        (fun j hj => hF p hp i hi j (by omega)))]
  rw [chunkList_mkRows2 (hh * ww) b apg hhw
    _ (fun p hp i hi => by
        rw [mkRows_one]
        exact hF p hp i hi k (by omega))]
  rw [zipWith_flatten_range _ b _ _ (fun p _ => by simp)]
  rw [List.flatten_flatten, List.map_map]
  unfold mkRows
  congr 1
  apply List.map_congr_left
  intro p hp
  simp only [Function.comp]
  rw [List.zipWith_map, List.zipWith_same]
  congr 1
  apply List.map_congr_left
  intro i hi
  have h1 : (List.map (fun _ : Nat => F p i k) (List.range 1)).flatten = F p i k := by simp
  rw [h1]
  simpa only [mkRows] using (mkRows_succ k (F p i)).symm

theorem concatAxis2_fold (b apg hh ww M : Nat) (F : Nat → Nat → Nat → List Int)
    (hhw : 0 < hh * ww)
    (hF : ∀ p < b, ∀ i < apg, ∀ j < M, (F p i j).length = hh * ww) :
    ∀ (r k : Nat), 0 < k → k + r ≤ M →
      List.foldl (concatPair 2)
          ⟨[b, apg, k, hh, ww],
            mkRows b (fun p => mkRows apg (fun i => mkRows k (F p i)))⟩
          ((List.range' k r).map (fun j =>
            ⟨[b, apg, 1, hh, ww],
              mkRows b (fun p => mkRows apg (fun i => mkRows 1 (fun _ => F p i j)))⟩)) =
        ⟨[b, apg, k + r, hh, ww],
          mkRows b (fun p => mkRows apg (fun i => mkRows (k + r) (F p i)))⟩ := by
  intro r
  induction r with
  | zero => intro k hk hkM; rfl
  | succ r ih =>
    intro k hk hkM
    rw [List.range'_succ]
    simp only [List.map_cons, List.foldl_cons]
    rw [concatPair2_snoc b apg hh ww k F hhw hk
      (fun p hp i hi j hj => hF p hp i hi j (by omega))]
    have := ih (k + 1) (by omega) (by omega)
    rw [this]
    have heq : k + 1 + r = k + (r + 1) := by omega
    rw [heq]

theorem concatAxis2_units (b apg hh ww M : Nat) (F : Nat → Nat → Nat → List Int)
    (hhw : 0 < hh * ww) (hM : 0 < M)
    (hF : ∀ p < b, ∀ i < apg, ∀ j < M, (F p i j).length = hh * ww) :
    concatAxis 2 ((List.range M).map (fun j =>
        ⟨[b, apg, 1, hh, ww],
          mkRows b (fun p => mkRows apg (fun i => mkRows 1 (fun _ => F p i j)))⟩)) =
      ⟨[b, apg, M, hh, ww],
        mkRows b (fun p => mkRows apg (fun i => mkRows M (F p i)))⟩ := by
  obtain ⟨m, rfl⟩ : ∃ m, M = m + 1 := ⟨M - 1, by omega⟩
  rw [List.range_eq_range', List.range'_succ]
  simp only [List.map_cons, Nat.zero_add]
  show List.foldl (concatPair 2) _ _ = _
  have hacc : mkRows b (fun p => mkRows apg (fun i => mkRows 1 (fun _ => F p i 0))) =
      mkRows b (fun p => mkRows apg (fun i => mkRows 1 (F p i))) := by
    apply mkRows_congr
    intro p _
    apply mkRows_congr
    intro i _
    apply mkRows_congr
    intro j hj
    have hj0 : j = 0 := by omega
    rw [hj0]
  rw [hacc]
  rw [concatAxis2_fold b apg hh ww (m + 1) F hhw hF m 1 (by omega) (by omega)]
  rw [Nat.add_comm 1 m]

theorem split_block_D1 (b n apg nba hh ww : Nat) (P : Nat → Nat → List Int)
    (hhw : 0 < hh * ww) (hapg : 0 < apg) (hn : 2 ≤ n) (hnba : 0 < nba) (hnn : nba < n)
    (hP : ∀ p < b, ∀ c < n * apg, (P p c).length = hh * ww) :
    BigRegressionOutput.split_block apg nba
        ⟨[b, n * apg, hh, ww], mkRows b (fun p => mkRows (n * apg) (P p))⟩ =
      (⟨[b, apg, nba, hh, ww],
          mkRows b (fun p => mkRows apg (fun i =>
            mkRows nba (fun j => P p (j * apg + i))))⟩,
       ⟨[b, apg, 1, hh, ww],
          mkRows b (fun p => mkRows apg (fun i =>
            mkRows 1 (fun _ => P p ((n - 1) * apg + i))))⟩) := by
  unfold BigRegressionOutput.split_block
  dsimp only
  have hgd : ([b, n * apg, hh, ww] : List Nat).getD 1 0 = n * apg := rfl
  have hdiv : n * apg / apg = n := Nat.mul_div_cancel n hapg
  rw [hgd, hdiv, if_neg (by omega : ¬ n = 1), ndSplitSections_eq_npSplit,
    npSplit_D1 b n apg hh ww P hhw hapg (by omega) hP, List.map_map]
  have hmap : ((List.range n).map (expandDims 2 ∘ fun j =>
      (⟨[b, apg, hh, ww],
        mkRows b (fun p => mkRows apg (fun i => P p (j * apg + i)))⟩ : Tensor))) =
      (List.range n).map (fun j =>
        (⟨[b, apg, 1, hh, ww],
          mkRows b (fun p => mkRows apg (fun i =>
            mkRows 1 (fun _ => P p (j * apg + i))))⟩ : Tensor)) := by
    apply List.map_congr_left
    intro j _
    simp only [Function.comp]
    unfold expandDims
    dsimp only
    congr 1
    apply mkRows_congr
    intro p _
    apply mkRows_congr
    intro i _
    exact (mkRows_one (fun _ => P p (j * apg + i))).symm
  rw [hmap]
  have hPbound : ∀ p < b, ∀ i < apg, ∀ j < n, (P p (j * apg + i)).length = hh * ww := by
    intro p hp i hi j hj
    apply hP p hp
    calc j * apg + i < j * apg + apg := by omega
      _ = (j + 1) * apg := by ring
      _ ≤ n * apg := Nat.mul_le_mul_right apg (by omega)
  congr 1
  · rw [← List.map_take, List.take_range, Nat.min_eq_left (by omega : nba ≤ n)]
    exact concatAxis2_units b apg hh ww nba (fun p i j => P p (j * apg + i)) hhw hnba
      (fun p hp i hi j hj => hPbound p hp i hi j (by omega))
  · obtain ⟨m, rfl⟩ : ∃ m, n = m + 1 := ⟨n - 1, by omega⟩
    rw [List.range_succ, List.map_append]
    simp only [List.map_cons, List.map_nil]
    rw [List.getLastD_concat]
    simp only [Nat.add_sub_cancel]

theorem broadcastMul2_D2 (b apg m hh ww : Nat) (F : Nat → Nat → Nat → List Int)
    (G : Nat → Nat → List Int) (hhw : 0 < hh * ww) (hm : 0 < m)
    (hF : ∀ p < b, ∀ i < apg, ∀ j < m, (F p i j).length = hh * ww)
    (hG : ∀ p < b, ∀ i < apg, (G p i).length = hh * ww) :
    broadcastMul2
        ⟨[b, apg, m, hh, ww],
          mkRows b (fun p => mkRows apg (fun i => mkRows m (F p i)))⟩
        ⟨[b, apg, 1, hh, ww],
          mkRows b (fun p => mkRows apg (fun i => mkRows 1 (fun _ => G p i)))⟩ =
      ⟨[b, apg, m, hh, ww],
        mkRows b (fun p => mkRows apg (fun i =>
          mkRows m (fun j => List.zipWith (· * ·) (F p i j) (G p i))))⟩ := by
  unfold broadcastMul2
  dsimp only
  congr 1
  have hpP : (List.drop 3 [b, apg, m, hh, ww]).prod = hh * ww := by simp
  have hpT : (List.drop 2 [b, apg, m, hh, ww]).prod = m * (hh * ww) := by simp
  have hpU : (List.drop 2 [b, apg, 1, hh, ww]).prod = hh * ww := by simp
  rw [hpP, hpT, hpU]
  rw [chunkList_mkRows2 (m * (hh * ww)) b apg (by positivity)
    _ (fun p hp i hi => mkRows_length m (hh * ww) (F p i) (fun j hj => hF p hp i hi j hj))]
  rw [chunkList_mkRows2 (hh * ww) b apg hhw
    _ (fun p hp i hi => by rw [mkRows_one]; exact hG p hp i hi)]
  rw [zipWith_flatten_range _ b _ _ (fun p _ => by simp)]
  rw [List.flatten_flatten, List.map_map]
  unfold mkRows
  congr 1
  apply List.map_congr_left
  intro p hp
  simp only [Function.comp]
  rw [List.zipWith_map, List.zipWith_same]
  congr 1
  apply List.map_congr_left
  intro i hi
  have hg1 : (List.map (fun _ : Nat => G p i) (List.range 1)).flatten = G p i := by simp
  rw [hg1]
  rw [chunkList_join (hh * ww) hhw _ (mem_range_map_length
    (fun j hj => hF p (List.mem_range.mp hp) i (List.mem_range.mp hi) j hj))]
  rw [List.map_map]
  rfl

theorem splitSqueeze2_D2 (b apg m hh ww : Nat) (F : Nat → Nat → Nat → List Int)
    (hhw : 0 < hh * ww) (hm : 0 < m)
    (hF : ∀ p < b, ∀ i < apg, ∀ j < m, (F p i j).length = hh * ww) :
    splitSqueeze2 m
        ⟨[b, apg, m, hh, ww],
          mkRows b (fun p => mkRows apg (fun i => mkRows m (F p i)))⟩ =
      (List.range m).map (fun j =>
        ⟨[b, apg, hh, ww],
          mkRows b (fun p => mkRows apg (fun i => F p i j))⟩) := by
  unfold splitSqueeze2
  dsimp only
  apply List.map_congr_left
  intro j hj
  have hj' : j < m := List.mem_range.mp hj
  congr 1
  have hpP : (List.drop 3 [b, apg, m, hh, ww]).prod = hh * ww := by simp
  have hpT : (List.drop 2 [b, apg, m, hh, ww]).prod = m * (hh * ww) := by simp
  rw [hpP, hpT]
  rw [chunkList_mkRows2 (m * (hh * ww)) b apg (by positivity)
    _ (fun p hp i hi => mkRows_length m (hh * ww) (F p i) (fun j2 hj2 => hF p hp i hi j2 hj2))]
  rw [List.map_flatten, List.map_map]
  rw [← flatten_flatten_mkRows b apg (fun p i => F p i j)]
  congr 2
  apply List.map_congr_left
  intro p hp
  simp only [Function.comp, List.map_map]
  apply List.map_congr_left
  intro i hi
  simp only [Function.comp]
  have hdt := mkRows_drop_take m j 1 (hh * ww) (F p i)
    (fun j2 hj2 => hF p (List.mem_range.mp hp) i (List.mem_range.mp hi) j2 hj2)
    (by omega)
  simp only [Nat.one_mul, mkRows_one, Nat.add_zero] at hdt
  exact hdt

theorem concatPair1_snoc (b apg hh ww k : Nat) (P2 : Nat → Nat → List Int)
    (hhw : 0 < hh * ww) (hapg : 0 < apg) (hk : 0 < k)
    (hP : ∀ p < b, ∀ c < k * apg + apg, (P2 p c).length = hh * ww) :
    concatPair 1
        ⟨[b, k * apg, hh, ww], mkRows b (fun p => mkRows (k * apg) (P2 p))⟩
        ⟨[b, apg, hh, ww],
          mkRows b (fun p => mkRows apg (fun i => P2 p (k * apg + i)))⟩ =
      ⟨[b, k * apg + apg, hh, ww],
        mkRows b (fun p => mkRows (k * apg + apg) (P2 p))⟩ := by
  unfold concatPair
  dsimp only
  congr 1
  have hpT : (List.drop 1 [b, k * apg, hh, ww]).prod = k * apg * (hh * ww) := by
    simp [Nat.mul_assoc]
  have hpU : (List.drop 1 [b, apg, hh, ww]).prod = apg * (hh * ww) := by
    simp [Nat.mul_assoc]
  rw [hpT, hpU]
  rw [chunkList_mkRows (k * apg * (hh * ww)) b (by positivity)
    _ (fun p hp => mkRows_length (k * apg) (hh * ww) (P2 p)
        (fun c hc => hP p hp c (by omega)))]
  rw [chunkList_mkRows (apg * (hh * ww)) b (by positivity)
    _ (fun p hp => mkRows_length apg (hh * ww) _
        (fun i hi => hP p hp (k * apg + i) (by omega)))]
  rw [List.zipWith_map, List.zipWith_same]
  conv_rhs => rw [mkRows]
  congr 1
  apply List.map_congr_left
  intro p hp
  exact (mkRows_add (k * apg) apg (P2 p)).symm

theorem concatAxis1_fold (b apg hh ww M : Nat) (P2 : Nat → Nat → List Int)
    (hhw : 0 < hh * ww) (hapg : 0 < apg)
    (hP : ∀ p < b, ∀ c < M * apg, (P2 p c).length = hh * ww) :
    ∀ (r k : Nat), 0 < k → k + r ≤ M →
      List.foldl (concatPair 1)
          ⟨[b, k * apg, hh, ww], mkRows b (fun p => mkRows (k * apg) (P2 p))⟩
          ((List.range' k r).map (fun j =>
            ⟨[b, apg, hh, ww],
              mkRows b (fun p => mkRows apg (fun i => P2 p (j * apg + i)))⟩)) =
        ⟨[b, (k + r) * apg, hh, ww],
          mkRows b (fun p => mkRows ((k + r) * apg) (P2 p))⟩ := by
  intro r
  induction r with
  | zero => intro k hk hkM; rfl
  | succ r ih =>
    intro k hk hkM
    rw [List.range'_succ]
    simp only [List.map_cons, List.foldl_cons]
    rw [concatPair1_snoc b apg hh ww k P2 hhw hapg hk
      (fun p hp c hc => hP p hp c (by
        have h1 : k * apg + apg = (k + 1) * apg := by ring
        have h2 : (k + 1) * apg ≤ M * apg := Nat.mul_le_mul_right apg (by omega)
        omega))]
    have heq : k * apg + apg = (k + 1) * apg := by ring
    rw [heq]
    rw [ih (k + 1) (by omega) (by omega)]
    have heq2 : k + 1 + r = k + (r + 1) := by omega
    rw [heq2]

theorem concatAxis1_sections (b apg hh ww M : Nat) (P2 : Nat → Nat → List Int)
    (hhw : 0 < hh * ww) (hapg : 0 < apg) (hM : 0 < M)
    (hP : ∀ p < b, ∀ c < M * apg, (P2 p c).length = hh * ww) :
    concatAxis 1 ((List.range M).map (fun j =>
        ⟨[b, apg, hh, ww],
          mkRows b (fun p => mkRows apg (fun i => P2 p (j * apg + i)))⟩)) =
      ⟨[b, M * apg, hh, ww], mkRows b (fun p => mkRows (M * apg) (P2 p))⟩ := by
  obtain ⟨m, rfl⟩ : ∃ m, M = m + 1 := ⟨M - 1, by omega⟩
  rw [List.range_eq_range', List.range'_succ]
  simp only [List.map_cons, Nat.zero_add]
  show List.foldl (concatPair 1) _ _ = _
  have hacc : (⟨[b, apg, hh, ww],
      mkRows b (fun p => mkRows apg (fun i => P2 p (0 * apg + i)))⟩ : Tensor) =
      ⟨[b, 1 * apg, hh, ww], mkRows b (fun p => mkRows (1 * apg) (P2 p))⟩ := by
    congr 1
    · rw [Nat.one_mul]
    · apply mkRows_congr
      intro p _
      have h1 : (1 : Nat) * apg = apg := Nat.one_mul apg
      rw [h1]
      apply mkRows_congr
      intro i _
      rw [Nat.zero_mul, Nat.zero_add]
  rw [hacc]
  rw [concatAxis1_fold b apg hh ww (m + 1) P2 hhw hapg hP m 1 (by omega) (by omega)]
  rw [Nat.add_comm 1 m]

theorem forward_D1 (b apg nba hh ww : Nat) (P Q : Nat → Nat → List Int)
    (hhw : 0 < hh * ww) (hapg : 0 < apg) (hnba : 0 < nba)
    (hP : ∀ p < b, ∀ c < (nba + 1) * apg, (P p c).length = hh * ww)
    (hQ : ∀ p < b, ∀ c < (nba + 1) * apg, (Q p c).length = hh * ww) :
    BigRegressionOutput.forward apg nba
        ⟨[b, (nba + 1) * apg, hh, ww],
          mkRows b (fun p => mkRows ((nba + 1) * apg) (P p))⟩
        ⟨[b, (nba + 1) * apg, hh, ww],
          mkRows b (fun p => mkRows ((nba + 1) * apg) (Q p))⟩ =
      ⟨[b, (nba + 1) * apg, hh, ww],
        mkRows b (fun p => mkRows ((nba + 1) * apg) (fun c =>
          if c < nba * apg then
            List.zipWith (· * ·) (P p c) (Q p (nba * apg + c % apg))
          else P p c))⟩ := by
  have hbound : ∀ p < b, ∀ i < apg, ∀ j < nba, j * apg + i < (nba + 1) * apg := by
    intro p _ i hi j hj
    calc j * apg + i < j * apg + apg := by omega
      _ = (j + 1) * apg := by ring
      _ ≤ (nba + 1) * apg := Nat.mul_le_mul_right apg (by omega)
  have hsbound : ∀ i < apg, nba * apg + i < (nba + 1) * apg := by
    intro i hi
    calc nba * apg + i < nba * apg + apg := by omega
      _ = (nba + 1) * apg := by ring
  unfold BigRegressionOutput.forward
  rw [split_block_D1 b (nba + 1) apg nba hh ww P hhw hapg (by omega) hnba (by omega) hP]
  rw [split_block_D1 b (nba + 1) apg nba hh ww Q hhw hapg (by omega) hnba (by omega) hQ]
  dsimp only
  simp only [Nat.add_sub_cancel]
  rw [broadcastMul2_D2 b apg nba hh ww (fun p i j => P p (j * apg + i))
    (fun p i => Q p (nba * apg + i)) hhw hnba
    (fun p hp i hi j hj => hP p hp _ (hbound p hp i hi j hj))
    (fun p hp i hi => hQ p hp _ (hsbound i hi))]
  unfold BigRegressionOutput.merge_block
  simp only [List.map_cons, List.map_nil, List.flatten_cons, List.flatten_nil,
    List.append_nil]
  have hgd1 : ([b, apg, nba, hh, ww] : List Nat).getD 2 0 = nba := rfl
  have hgd2 : ([b, apg, 1, hh, ww] : List Nat).getD 2 0 = 1 := rfl
  rw [hgd1, hgd2]
  rw [splitSqueeze2_D2 b apg nba hh ww
    (fun p i j => List.zipWith (· * ·) (P p (j * apg + i)) (Q p (nba * apg + i))) hhw hnba
    (fun p hp i hi j hj => by
      rw [List.length_zipWith, hP p hp _ (hbound p hp i hi j hj),
        hQ p hp _ (hsbound i hi), Nat.min_self])]
  rw [splitSqueeze2_D2 b apg 1 hh ww (fun p i _ => P p (nba * apg + i)) hhw (by omega)
    (fun p hp i hi j hj => hP p hp _ (hsbound i hi))]
  have hone : (List.range 1).map (fun j =>
      (⟨[b, apg, hh, ww],
        mkRows b (fun p => mkRows apg (fun i => P p (nba * apg + i)))⟩ : Tensor)) =
      [⟨[b, apg, hh, ww],
        mkRows b (fun p => mkRows apg (fun i => P p (nba * apg + i)))⟩] := by
    simp
  rw [hone]
  have hsplit : (List.range nba).map (fun j =>
        (⟨[b, apg, hh, ww],
          mkRows b (fun p => mkRows apg (fun i =>
            List.zipWith (· * ·) (P p (j * apg + i)) (Q p (nba * apg + i))))⟩ : Tensor)) ++
      [⟨[b, apg, hh, ww],
        mkRows b (fun p => mkRows apg (fun i => P p (nba * apg + i)))⟩] =
      (List.range (nba + 1)).map (fun j =>
        ⟨[b, apg, hh, ww],
          mkRows b (fun p => mkRows apg (fun i =>
            if j * apg + i < nba * apg then
              List.zipWith (· * ·) (P p (j * apg + i)) (Q p (nba * apg + (j * apg + i) % apg))
            else P p (j * apg + i)))⟩) := by
    rw [List.range_succ, List.map_append]
    congr 1
    · apply List.map_congr_left
      intro j hj
      have hj' : j < nba := List.mem_range.mp hj
      congr 1
      apply mkRows_congr
      intro p hp
      apply mkRows_congr
      intro i hi
      rw [if_pos (by
        calc j * apg + i < j * apg + apg := by omega
          _ = (j + 1) * apg := by ring
          _ ≤ nba * apg := Nat.mul_le_mul_right apg (by omega))]
      have hmod : (j * apg + i) % apg = i := by
        rw [Nat.add_comm, Nat.add_mul_mod_self_right, Nat.mod_eq_of_lt hi]
      rw [hmod]
    · simp only [List.map_cons, List.map_nil]
      congr 1
      congr 1
      apply mkRows_congr
      intro p hp
      apply mkRows_congr
      intro i hi
      rw [if_neg (by omega)]
  rw [hsplit]
  rw [concatAxis1_sections b apg hh ww (nba + 1)
    (fun p c => if c < nba * apg then
        List.zipWith (· * ·) (P p c) (Q p (nba * apg + c % apg))
      else P p c) hhw hapg (by omega)
    (fun p hp c hc => by
      dsimp only
      by_cases hcb : c < nba * apg
      · rw [if_pos hcb]
        rw [List.length_zipWith, hP p hp c (by omega),
          hQ p hp _ (hsbound (c % apg) (Nat.mod_lt c hapg)), Nat.min_self]
      · rw [if_neg hcb]
        exact hP p hp c hc)]

theorem maskedPrediction_D1 (b apg nba hh ww : Nat) (P Q : Nat → Nat → List Int)
    (hhw : 0 < hh * ww) (hapg : 0 < apg) (hnba : 0 < nba)
    (hP : ∀ p < b, ∀ c < (nba + 1) * apg, (P p c).length = hh * ww)
    (hQ : ∀ p < b, ∀ c < (nba + 1) * apg, (Q p c).length = hh * ww) :
    maskedPrediction apg nba
        ⟨[b, (nba + 1) * apg, hh, ww],
          mkRows b (fun p => mkRows ((nba + 1) * apg) (P p))⟩
        ⟨[b, (nba + 1) * apg, hh, ww],
          mkRows b (fun p => mkRows ((nba + 1) * apg) (Q p))⟩ =
      ⟨[b, (nba + 1) * apg, hh, ww],
        mkRows b (fun p => mkRows ((nba + 1) * apg) (fun c =>
          if c < nba * apg then
            List.zipWith (· * ·) (P p c) (Q p (nba * apg + c % apg))
          else P p c))⟩ := by
  have hsbound : ∀ i < apg, nba * apg + i < (nba + 1) * apg := by
    intro i hi
    calc nba * apg + i < nba * apg + apg := by omega
      _ = (nba + 1) * apg := by ring
  unfold maskedPrediction
  dsimp only
  congr 1
  have hpw2 : (List.drop 2 [b, (nba + 1) * apg, hh, ww]).prod = hh * ww := by simp
  have hgd : ([b, (nba + 1) * apg, hh, ww] : List Nat).getD 1 0 = (nba + 1) * apg := rfl
  rw [hpw2, hgd]
  rw [chunkList_mkRows ((nba + 1) * apg * (hh * ww)) b (by positivity)
    _ (fun p hp => mkRows_length ((nba + 1) * apg) (hh * ww) (P p)
        (fun c hc => hP p hp c hc))]
  rw [chunkList_mkRows ((nba + 1) * apg * (hh * ww)) b (by positivity)
    _ (fun p hp => mkRows_length ((nba + 1) * apg) (hh * ww) (Q p)
        (fun c hc => hQ p hp c hc))]
  rw [List.zipWith_map, List.zipWith_same]
  conv_rhs => rw [mkRows]
  congr 1
  apply List.map_congr_left
  intro p hp
  have hp' : p < b := List.mem_range.mp hp
  conv_rhs => rw [mkRows]
  congr 1
  apply List.map_congr_left
  intro c hc
  have hc' : c < (nba + 1) * apg := List.mem_range.mp hc
  have hPslice : ((mkRows ((nba + 1) * apg) (P p)).drop (c * (hh * ww))).take (hh * ww) =
      P p c := by
    have hdt := mkRows_drop_take ((nba + 1) * apg) c 1 (hh * ww) (P p)
      (fun c2 hc2 => hP p hp' c2 hc2) (by omega)
    simpa only [Nat.one_mul, mkRows_one, Nat.add_zero] using hdt
  by_cases hcb : c < nba * apg
  · rw [if_pos hcb, if_pos hcb, hPslice]
    have hm : nba * apg + c % apg < (nba + 1) * apg := hsbound _ (Nat.mod_lt c hapg)
    have hQslice : ((mkRows ((nba + 1) * apg) (Q p)).drop
        ((nba * apg + c % apg) * (hh * ww))).take (hh * ww) = Q p (nba * apg + c % apg) := by
      have hdt := mkRows_drop_take ((nba + 1) * apg) (nba * apg + c % apg) 1 (hh * ww) (Q p)
        (fun c2 hc2 => hQ p hp' c2 hc2) (by omega)
      simpa only [Nat.one_mul, mkRows_one, Nat.add_zero] using hdt
    rw [hQslice]
  · rw [if_neg hcb, if_neg hcb, hPslice]

theorem data_decomp (b C s : Nat) (hs : 0 < s) (hC : 0 < C) (l : List Int)
    (hlen : l.length = b * (C * s)) :
    l = mkRows b (fun p => mkRows C (fun c => (l.drop ((p * C + c) * s)).take s)) := by
  conv_lhs => rw [← join_chunkList (C * s) (by positivity) l,
    chunkList_eq_range_map (C * s) b (by positivity) l hlen]
  rw [mkRows]
  congr 1
  apply List.map_congr_left
  intro p hp
  have hp' : p < b := List.mem_range.mp hp
  have hblock_len : ((l.drop (p * (C * s))).take (C * s)).length = C * s := by
    rw [List.length_take, List.length_drop, hlen]
    have h1 : (p + 1) * (C * s) ≤ b * (C * s) := Nat.mul_le_mul_right _ (by omega)
    have h2 : p * (C * s) + C * s ≤ b * (C * s) := by
      calc p * (C * s) + C * s = (p + 1) * (C * s) := by ring
        _ ≤ b * (C * s) := h1
    omega
  conv_lhs => rw [← join_chunkList s hs ((l.drop (p * (C * s))).take (C * s)),
    chunkList_eq_range_map s C hs _ hblock_len]
  rw [mkRows]
  congr 1
  apply List.map_congr_left
  intro c hc
  have hc' : c < C := List.mem_range.mp hc
  have hss := slice_slice l (p * (C * s)) (C * s) (c * s) s
    (by
      calc c * s + s = (c + 1) * s := by ring
        _ ≤ C * s := Nat.mul_le_mul_right s (by omega))
  rw [hss]
  have : p * (C * s) + c * s = (p * C + c) * s := by ring
  rw [this]

theorem foldl_concatPair2_nil (b apg hh ww : Nat) :
    ∀ (r k : Nat),
      List.foldl (concatPair 2) ⟨[b, apg, k, hh, ww], []⟩
          ((List.range' k r).map (fun _ => (⟨[b, apg, 1, hh, ww], []⟩ : Tensor))) =
        ⟨[b, apg, k + r, hh, ww], []⟩ := by
  intro r
  induction r with
  | zero => intro k; rfl
  | succ r ih =>
    intro k
    rw [List.range'_succ]
    simp only [List.map_cons, List.foldl_cons]
    have hstep : concatPair 2 (⟨[b, apg, k, hh, ww], []⟩ : Tensor)
        ⟨[b, apg, 1, hh, ww], []⟩ = ⟨[b, apg, k + 1, hh, ww], []⟩ := rfl
    rw [hstep, ih (k + 1)]
    have : k + 1 + r = k + (r + 1) := by omega
    rw [this]

theorem foldl_concatPair1_nil (b apg hh ww : Nat) :
    ∀ (r c k : Nat),
      List.foldl (concatPair 1) ⟨[b, c, hh, ww], []⟩
          ((List.range' k r).map (fun _ => (⟨[b, apg, hh, ww], []⟩ : Tensor))) =
        ⟨[b, c + r * apg, hh, ww], []⟩ := by
  intro r
  induction r with
  | zero => intro c k; simp
  | succ r ih =>
    intro c k
    rw [List.range'_succ]
    simp only [List.map_cons, List.foldl_cons]
    have hstep : concatPair 1 (⟨[b, c, hh, ww], []⟩ : Tensor)
        ⟨[b, apg, hh, ww], []⟩ = ⟨[b, c + apg, hh, ww], []⟩ := rfl
    rw [hstep, ih (c + apg) (k + 1)]
    have : c + apg + r * apg = c + (r + 1) * apg := by ring
    rw [this]

theorem split_block_nil (b n apg nba hh ww : Nat) (hapg : 0 < apg) (hn : 2 ≤ n)
    (hnba : 0 < nba) (hnn : nba ≤ n) :
    BigRegressionOutput.split_block apg nba ⟨[b, n * apg, hh, ww], ([] : List Int)⟩ =
      (⟨[b, apg, nba, hh, ww], []⟩, ⟨[b, apg, 1, hh, ww], []⟩) := by
  unfold BigRegressionOutput.split_block
  dsimp only
  have hgd : ([b, n * apg, hh, ww] : List Nat).getD 1 0 = n * apg := rfl
  have hdiv : n * apg / apg = n := Nat.mul_div_cancel n hapg
  rw [hgd, hdiv, if_neg (by omega : ¬ n = 1)]
  have hsec : ndSplitSections 1 n ⟨[b, n * apg, hh, ww], ([] : List Int)⟩ =
      (List.range n).map (fun _ => ⟨[b, apg, hh, ww], []⟩) := by
    unfold ndSplitSections
    apply List.map_congr_left
    intro j _
    congr 1
    show ([b, n * apg, hh, ww] : List Nat).set 1 (n * apg / n) = _
    rw [Nat.mul_div_cancel_left apg (by omega : 0 < n)]
    rfl
  rw [hsec, List.map_map]
  have hexp : ((List.range n).map (expandDims 2 ∘ fun _ =>
      (⟨[b, apg, hh, ww], []⟩ : Tensor))) =
      (List.range n).map (fun _ => (⟨[b, apg, 1, hh, ww], []⟩ : Tensor)) := by
    apply List.map_congr_left
    intro j _
    rfl
  rw [hexp]
  congr 1
  · rw [← List.map_take, List.take_range, Nat.min_eq_left hnn]
    obtain ⟨m, rfl⟩ : ∃ m, nba = m + 1 := ⟨nba - 1, by omega⟩
    rw [List.range_eq_range', List.range'_succ]
    simp only [List.map_cons, Nat.zero_add]
    show List.foldl (concatPair 2) _ _ = _
    rw [foldl_concatPair2_nil b apg hh ww m 1]
    rw [Nat.add_comm 1 m]
  · obtain ⟨m, rfl⟩ : ∃ m, n = m + 1 := ⟨n - 1, by omega⟩
    rw [List.range_succ, List.map_append]
    simp only [List.map_cons, List.map_nil]
    rw [List.getLastD_concat]

theorem splitSqueeze2_nil (b apg m hh ww : Nat) :
    splitSqueeze2 m ⟨[b, apg, m, hh, ww], ([] : List Int)⟩ =
      (List.range m).map (fun _ => ⟨[b, apg, hh, ww], []⟩) := by
  unfold splitSqueeze2
  apply List.map_congr_left
  intro j _
  rfl

theorem forward_nil (b apg nba hh ww : Nat) (hapg : 0 < apg) (hnba : 0 < nba) :
    BigRegressionOutput.forward apg nba
        ⟨[b, (nba + 1) * apg, hh, ww], ([] : List Int)⟩
        ⟨[b, (nba + 1) * apg, hh, ww], ([] : List Int)⟩ =
      ⟨[b, (nba + 1) * apg, hh, ww], []⟩ := by
  unfold BigRegressionOutput.forward
  rw [split_block_nil b (nba + 1) apg nba hh ww hapg (by omega) hnba (by omega)]
  dsimp only
  have hmul : broadcastMul2 (⟨[b, apg, nba, hh, ww], []⟩ : Tensor)
      ⟨[b, apg, 1, hh, ww], []⟩ = ⟨[b, apg, nba, hh, ww], []⟩ := rfl
  rw [hmul]
  unfold BigRegressionOutput.merge_block
  simp only [List.map_cons, List.map_nil, List.flatten_cons, List.flatten_nil,
    List.append_nil]
  have hgd1 : ([b, apg, nba, hh, ww] : List Nat).getD 2 0 = nba := rfl
  have hgd2 : ([b, apg, 1, hh, ww] : List Nat).getD 2 0 = 1 := rfl
  rw [hgd1, hgd2, splitSqueeze2_nil b apg nba hh ww, splitSqueeze2_nil b apg 1 hh ww]
  have hone : (List.range 1).map (fun _ => (⟨[b, apg, hh, ww], []⟩ : Tensor)) =
      [⟨[b, apg, hh, ww], []⟩] := by simp
  rw [hone]
  have hjoin : (List.range nba).map (fun _ => (⟨[b, apg, hh, ww], []⟩ : Tensor)) ++
      [⟨[b, apg, hh, ww], []⟩] =
      (List.range (nba + 1)).map (fun _ => (⟨[b, apg, hh, ww], []⟩ : Tensor)) := by
    rw [List.range_succ, List.map_append]
    simp
  rw [hjoin]
  obtain ⟨m, rfl⟩ : ∃ m, nba = m + 1 := ⟨nba - 1, by omega⟩
  rw [List.range_eq_range', List.range'_succ]
  simp only [List.map_cons, Nat.zero_add]
  show List.foldl (concatPair 1) _ _ = _
  rw [foldl_concatPair1_nil b apg hh ww (m + 1) apg 1]
  congr 2
  ring_nf

/-- C10, amended: when the channel dimension is exactly
`(NUM_BBOX_ATTRS + 1) * ANCHORS_PER_GRID`, `forward` outputs the
prediction with only its bounding-box channels multiplied elementwise by
the label's broadcast mask (the label's score block); the score channels
pass through unchanged. -/
theorem forward_masks_bbox_only (b apg nba hh ww : Nat) (pred label : Tensor)
    (hapg : 0 < apg) (hnba : 0 < nba)
    (hps : pred.shape = [b, (nba + 1) * apg, hh, ww]) (hls : label.shape = pred.shape)
    (hpw : pred.wf) (hlw : label.wf) :
    BigRegressionOutput.forward apg nba pred label =
      maskedPrediction apg nba pred label := by
  obtain ⟨pshape, pdata⟩ := pred
  obtain ⟨lshape, ldata⟩ := label
  have hps' : pshape = [b, (nba + 1) * apg, hh, ww] := hps
  have hls' : lshape = [b, (nba + 1) * apg, hh, ww] := by rw [← hps']; exact hls
  subst hps'
  subst hls'
  have hprod : ([b, (nba + 1) * apg, hh, ww] : List Nat).prod =
      b * ((nba + 1) * apg * (hh * ww)) := by simp [Nat.mul_assoc]
  have hplen : pdata.length = b * ((nba + 1) * apg * (hh * ww)) := by
    have := hpw
    unfold Tensor.wf at this
    rw [this]
    exact hprod
  have hllen : ldata.length = b * ((nba + 1) * apg * (hh * ww)) := by
    have := hlw
    unfold Tensor.wf at this
    rw [this]
    exact hprod
  by_cases hhw : 0 < hh * ww
  case neg =>
    have hz : hh * ww = 0 := by omega
    have hpnil : pdata = [] := by
      have : pdata.length = 0 := by rw [hplen, hz]; ring
      exact List.length_eq_zero.mp this
    have hlnil : ldata = [] := by
      have : ldata.length = 0 := by rw [hllen, hz]; ring
      exact List.length_eq_zero.mp this
    subst hpnil
    subst hlnil
    rw [forward_nil b apg nba hh ww hapg hnba]
    rfl
  have hdP := data_decomp b ((nba + 1) * apg) (hh * ww) hhw (by positivity) pdata hplen
  have hdQ := data_decomp b ((nba + 1) * apg) (hh * ww) hhw (by positivity) ldata hllen
  have hPlen : ∀ p < b, ∀ c < (nba + 1) * apg,
      ((pdata.drop ((p * ((nba + 1) * apg) + c) * (hh * ww))).take (hh * ww)).length =
        hh * ww := by
    intro p hp c hc
    rw [List.length_take, List.length_drop, hplen]
    have h1 : p * ((nba + 1) * apg) + c + 1 ≤ b * ((nba + 1) * apg) := by
      calc p * ((nba + 1) * apg) + c + 1 ≤ p * ((nba + 1) * apg) + (nba + 1) * apg := by
            omega
        _ = (p + 1) * ((nba + 1) * apg) := by ring
        _ ≤ b * ((nba + 1) * apg) := Nat.mul_le_mul_right _ (by omega)
    have h2 : (p * ((nba + 1) * apg) + c) * (hh * ww) + hh * ww ≤
        b * ((nba + 1) * apg * (hh * ww)) := by
      calc (p * ((nba + 1) * apg) + c) * (hh * ww) + hh * ww
          = (p * ((nba + 1) * apg) + c + 1) * (hh * ww) := by ring
        _ ≤ (b * ((nba + 1) * apg)) * (hh * ww) :=
            Nat.mul_le_mul_right (hh * ww) h1
        _ = b * ((nba + 1) * apg * (hh * ww)) := by ring
    omega
  have hQlen : ∀ p < b, ∀ c < (nba + 1) * apg,
      ((ldata.drop ((p * ((nba + 1) * apg) + c) * (hh * ww))).take (hh * ww)).length =
        hh * ww := by
    intro p hp c hc
    rw [List.length_take, List.length_drop, hllen]
    have h1 : p * ((nba + 1) * apg) + c + 1 ≤ b * ((nba + 1) * apg) := by
      calc p * ((nba + 1) * apg) + c + 1 ≤ p * ((nba + 1) * apg) + (nba + 1) * apg := by
            omega
        _ = (p + 1) * ((nba + 1) * apg) := by ring
        _ ≤ b * ((nba + 1) * apg) := Nat.mul_le_mul_right _ (by omega)
    have h2 : (p * ((nba + 1) * apg) + c) * (hh * ww) + hh * ww ≤
        b * ((nba + 1) * apg * (hh * ww)) := by
      calc (p * ((nba + 1) * apg) + c) * (hh * ww) + hh * ww
          = (p * ((nba + 1) * apg) + c + 1) * (hh * ww) := by ring
        _ ≤ (b * ((nba + 1) * apg)) * (hh * ww) :=
            Nat.mul_le_mul_right (hh * ww) h1
        _ = b * ((nba + 1) * apg * (hh * ww)) := by ring
    omega
  rw [hdP, hdQ]
  rw [forward_D1 b apg nba hh ww
    (fun p c => (pdata.drop ((p * ((nba + 1) * apg) + c) * (hh * ww))).take (hh * ww))
    (fun p c => (ldata.drop ((p * ((nba + 1) * apg) + c) * (hh * ww))).take (hh * ww))
    hhw hapg hnba hPlen hQlen]
  rw [maskedPrediction_D1 b apg nba hh ww
    (fun p c => (pdata.drop ((p * ((nba + 1) * apg) + c) * (hh * ww))).take (hh * ww))
    (fun p c => (ldata.drop ((p * ((nba + 1) * apg) + c) * (hh * ww))).take (hh * ww))
    hhw hapg hnba hPlen hQlen]

/-- C10, counterexample: with `ANCHORS_PER_GRID = 9` and
`NUM_BBOX_ATTRS = 4`, a prediction/label pair whose channel dimension is
`18 = 2 * 9` (a positive multiple of `ANCHORS_PER_GRID`) makes `forward`
emit a `27`-channel block (the two section chunks both land in the bbox
slice and the last also serves as score), which is not the prediction with
masked bbox channels. -/
theorem forward_ne_masked_at_mismatched_channels :
    BigRegressionOutput.forward 9 4
        ⟨[1, 18, 1, 1], List.replicate 18 (1 : Int)⟩
        ⟨[1, 18, 1, 1], List.replicate 18 (1 : Int)⟩ ≠
      maskedPrediction 9 4
        ⟨[1, 18, 1, 1], List.replicate 18 (1 : Int)⟩
        ⟨[1, 18, 1, 1], List.replicate 18 (1 : Int)⟩ := by
  decide

theorem forward_masks_bbox_only_witness :
    (Tensor.mk [1, 6, 1, 1] [1, 2, 3, 4, 5, 6]).wf ∧
      BigRegressionOutput.forward 2 2 ⟨[1, 6, 1, 1], [1, 2, 3, 4, 5, 6]⟩
          ⟨[1, 6, 1, 1], [10, 20, 30, 40, 50, 60]⟩ =
        maskedPrediction 2 2 ⟨[1, 6, 1, 1], [1, 2, 3, 4, 5, 6]⟩
          ⟨[1, 6, 1, 1], [10, 20, 30, 40, 50, 60]⟩ :=
  ⟨rfl,
    forward_masks_bbox_only 1 2 2 1 1
      ⟨[1, 6, 1, 1], [1, 2, 3, 4, 5, 6]⟩ ⟨[1, 6, 1, 1], [10, 20, 30, 40, 50, 60]⟩
      (by norm_num) (by norm_num) rfl rfl rfl rfl⟩


end SqueezeDetMX
